import Mathlib

set_option maxRecDepth 100000

/-!
Verification of the light-client header-synchronization engine of py-evm /
trinity against its specification.

The server-side message handling (class LESPeerServer and LESProtocolServer in
tests/p2p/test_lightchain.py) and the chain/sync-mode selection in
trinity/main.py are embedded directly from the source.  The Header Store
(evm.db ChainDB / headerdb) and the client Sync Engine (p2p.lightchain
LightPeerChain) are not part of the two source files, so they are modelled
from the specification (spec sections 2, 3, 4.4 and 6), as noted on each
definition.
-/

namespace PyEvm

/-- Header record, from the spec data model (section 3): immutable record with
parent_hash, block_number, difficulty, timestamp, coinbase, gas_limit.  The
hash is derived from the content (we model byte strings and addresses as
natural numbers). -/
structure BlockHeader where
  parent_hash : Nat
  block_number : Nat
  difficulty : Nat
  timestamp : Nat
  coinbase : Nat
  gas_limit : Nat
deriving DecidableEq

/-- Modulus for the content hash; the real hash is a 256-bit digest, we model
it with a fixed-range mixing function (a Mersenne prime keeps values small
enough to compute with). -/
def HASH_MOD : Nat := 2 ^ 61 - 1

/-- Modelled from the spec: the content-derived header hash (section 3,
"Hash is derived from content").  An injective pairing of all fields reduced
into a fixed range; as with a real digest, distinctness of hashes is a
property of the particular headers involved. -/
def BlockHeader.hash (h : BlockHeader) : Nat :=
  (Nat.pair h.parent_hash
    (Nat.pair h.block_number
      (Nat.pair h.difficulty
        (Nat.pair h.timestamp
          (Nat.pair h.coinbase h.gas_limit))))) % HASH_MOD

/-- Constructor used by the tests: BlockHeader.from_parent(parent, gas_limit,
difficulty, timestamp, coinbase) builds the child header of `parent`.
Modelled from the spec header record: the child's parent_hash is the parent's
hash and its block_number is the parent's plus one. -/
def BlockHeader.from_parent (parent : BlockHeader) (gas_limit difficulty timestamp coinbase : Nat) :
    BlockHeader :=
  ⟨parent.hash, parent.block_number + 1, difficulty, timestamp, coinbase, gas_limit⟩

/-- Modelled from the spec: a Header Store entry — a persisted header together
with its chain score (total cumulative difficulty, spec sections 2 and 3). -/
structure Stored where
  header : BlockHeader
  score : Nat
deriving DecidableEq

/-- Modelled from the spec: the Header Store (spec sections 2 and 6) —
append-only indexed chain storage holding every persisted header with its
score, plus the current canonical head chosen by highest cumulative score. -/
structure HeaderStore where
  stored : List Stored
  head : BlockHeader
  headScore : Nat
deriving DecidableEq

/-- Look up a persisted entry by header hash. -/
def HeaderStore.lookup (s : HeaderStore) (h : Nat) : Option Stored :=
  s.stored.find? (fun st => st.header.hash == h)

/-- Modelled from the spec: a fresh store holding only the genesis header
(get_fresh_mainnet_headerdb in the tests). -/
def HeaderStore.init (g : BlockHeader) : HeaderStore :=
  ⟨[⟨g, g.difficulty⟩], g, g.difficulty⟩

/-- Header Store interface: get_canonical_head() (spec section 6). -/
def HeaderStore.get_canonical_head (s : HeaderStore) : BlockHeader :=
  s.head

/-- Header Store interface: get_score(hash) (spec section 6). -/
def HeaderStore.get_score (s : HeaderStore) (h : Nat) : Option Nat :=
  (s.lookup h).map (fun st => st.score)

/-- Header Store interface: get_block_header_by_hash(h) (spec section 6). -/
def HeaderStore.get_block_header_by_hash (s : HeaderStore) (h : Nat) : Option BlockHeader :=
  (s.lookup h).map (fun st => st.header)

/-- Modelled from the spec: persist_header (spec sections 2, 4.4 step 5 and 6).
A header whose hash is already present is skipped as a no-op (spec section
4.4, multi-peer behavior).  Otherwise its predecessor must already be present
and the numbers contiguous — the Sync Engine validates this before committing
(spec section 4.4 step 4 and the section 3 invariant), so a violating commit
is rejected and leaves the store unchanged.  The score is the parent's score
plus the header's difficulty, and the canonical head is recomputed by
comparing cumulative scores (higher wins). -/
def HeaderStore.persist_header (s : HeaderStore) (h : BlockHeader) : HeaderStore :=
  if (s.lookup h.hash).isSome then s
  else
    match s.lookup h.parent_hash with
    | none => s
    | some p =>
      if h.block_number = p.header.block_number + 1 then
        if s.headScore < p.score + h.difficulty then
          ⟨⟨h, p.score + h.difficulty⟩ :: s.stored, h, p.score + h.difficulty⟩
        else
          ⟨⟨h, p.score + h.difficulty⟩ :: s.stored, s.head, s.headScore⟩
      else s

/-- Header Store interface: persist_headers (spec section 6), committing a
batch in increasing-number order (spec section 4.4 step 5). -/
def HeaderStore.persist_headers (s : HeaderStore) (hs : List BlockHeader) : HeaderStore :=
  hs.foldl HeaderStore.persist_header s

/-- Walk `k` parent links down from a header, through the store. -/
def HeaderStore.ancestorAt (s : HeaderStore) : BlockHeader → Nat → Option BlockHeader
  | h, 0 => some h
  | h, k + 1 =>
    match s.lookup h.parent_hash with
    | none => none
    | some p => s.ancestorAt p.header k

/-- Header Store interface: get_canonical_block_header_by_number(n) (spec
section 6).  The canonical chain is the parent-linked sequence from the
canonical head down to genesis (spec section 3 invariant and glossary), so the
canonical header at height n is the ancestor of the head that lies
head.block_number - n parent steps down. -/
def HeaderStore.get_canonical_block_header_by_number (s : HeaderStore) (n : Nat) :
    Option BlockHeader :=
  if n ≤ s.head.block_number then s.ancestorAt s.head (s.head.block_number - n) else none

/-- LES query anchor: the wire field block_number_or_hash holds either a block
number or a header hash (spec section 4.1). -/
inductive BlockNumberOrHash where
  | number (n : Nat)
  | hash (h : Nat)
deriving DecidableEq

/-- Modelled from the spec: the GetBlockHeaders query structure
{block_number_or_hash, max_headers, skip, reverse} (spec sections 4.1 and 6).
These four are the only fields of the query. -/
structure GetBlockHeadersQuery where
  block_number_or_hash : BlockNumberOrHash
  max_headers : Nat
  skip : Nat
  reverse : Bool
deriving DecidableEq

/-- A decoded GetBlockHeaders message: request_id plus the query
(spec section 4.1). -/
structure GetBlockHeadersMsg where
  request_id : Nat
  query : GetBlockHeadersQuery
deriving DecidableEq

/-- A BlockHeaders response: request_id, headers, buffer_value
(spec section 4.1; sent by LESProtocolServer.send_block_headers). -/
structure BlockHeadersMsg where
  request_id : Nat
  headers : List BlockHeader
  buffer_value : Nat
deriving DecidableEq

/-- An Announce message: head_hash, head_number, head_td, reorg_depth
(spec section 4.1; sent by LESProtocolServer.send_announce). -/
structure AnnounceMsg where
  head_hash : Nat
  head_number : Nat
  head_td : Nat
  reorg_depth : Nat
deriving DecidableEq

/-- Failures the server-side handler can raise while processing a
GetBlockHeaders message. -/
inductive HandlerError where
  | assertionError
  | attributeError
  | headerNotFound
deriving DecidableEq

/-- The test server peer (class LESPeerServer in tests/p2p/test_lightchain.py):
a headerdb plus the optional head-number override `_head_number` set by
send_announce. -/
structure LESPeerServer where
  headerdb : HeaderStore
  _head_number : Option Nat
deriving DecidableEq

/-- The head_number property of LESPeerServer: the override if set, else the
canonical head's block number. -/
def LESPeerServer.head_number (sv : LESPeerServer) : Nat :=
  match sv._head_number with
  | some n => n
  | none => sv.headerdb.get_canonical_head.block_number

/-- Fetch the canonical header for each listed block number, failing like the
generator expression in handle_get_block_headers does when a number is not in
the canonical index. -/
def collectCanonical (db : HeaderStore) : List Nat → Except HandlerError (List BlockHeader)
  | [] => Except.ok []
  | i :: rest =>
    match db.get_canonical_block_header_by_number i with
    | none => Except.error HandlerError.headerNotFound
    | some h => (collectCanonical db rest).map (fun t => h :: t)

/-- LESPeerServer.handle_get_block_headers, embedded from
tests/p2p/test_lightchain.py lines 186-203.  The anchor must be an integer
(the source asserts isinstance(block_number, int)).  In the reverse branch the
source evaluates `query.block`, but the query structure has only the fields
block_number_or_hash, max_headers, skip and reverse, so that attribute access
fails before any header is fetched.  In the forward branch the returned
numbers are range(block_number, min(head_number + 1, block_number +
max_headers)), and the reply echoes the request_id with buffer_value 0. -/
def LESPeerServer.handle_get_block_headers (sv : LESPeerServer) (msg : GetBlockHeadersMsg) :
    Except HandlerError BlockHeadersMsg :=
  match msg.query.block_number_or_hash with
  | BlockNumberOrHash.hash _ => Except.error HandlerError.assertionError
  | BlockNumberOrHash.number block_number =>
    if msg.query.reverse then
      Except.error HandlerError.attributeError
    else
      match collectCanonical sv.headerdb
          (List.range' block_number
            (min (sv.head_number + 1) (block_number + msg.query.max_headers) - block_number)) with
      | Except.error e => Except.error e
      | Except.ok headers => Except.ok ⟨msg.request_id, headers, 0⟩

/-- LESPeerServer.send_announce, embedded from tests/p2p/test_lightchain.py
lines 173-179: optionally override _head_number, look up the canonical header
at head_number and its score, and produce the Announce message (the updated
server is returned alongside it).  None is returned when the lookups fail
(the real code would raise). -/
def LESPeerServer.send_announce (sv : LESPeerServer) (head_number : Option Nat)
    (reorg_depth : Nat) : Option (LESPeerServer × AnnounceMsg) :=
  let sv2 : LESPeerServer :=
    match head_number with
    | some n => ⟨sv.headerdb, some n⟩
    | none => sv
  match sv2.headerdb.get_canonical_block_header_by_number sv2.head_number with
  | none => none
  | some header =>
    match sv2.headerdb.get_score header.hash with
    | none => none
    | some td => some (sv2, ⟨header.hash, header.block_number, td, reorg_depth⟩)

/-- Modelled from the spec: batch linkage check of the Sync Engine (spec
section 4.4 step 4) — returned headers must be contiguous by block_number and
each header's parent_hash must equal the previous header's hash. -/
def linkedBatch : List BlockHeader → Bool
  | [] => true
  | [_] => true
  | a :: b :: rest =>
    (b.parent_hash == a.hash) && (b.block_number == a.block_number + 1) &&
      linkedBatch (b :: rest)

/-- Modelled from the spec: the anchoring check of the Sync Engine (spec
section 4.4 step 4) — the first header of a batch must connect to a hash
already present in the Header Store, either through its parent or because it
is itself already canonical (overlap fetch, spec sections 3 and 4.4 step 2). -/
def batchAnchored (c : HeaderStore) : List BlockHeader → Bool
  | [] => false
  | h :: _ => (c.lookup h.parent_hash).isSome || (c.lookup h.hash).isSome

/-- Modelled from the spec: full batch validation (spec section 4.4 step 4). -/
def validBatch (c : HeaderStore) (batch : List BlockHeader) : Bool :=
  batchAnchored c batch && linkedBatch batch

/-- Modelled from the spec: the fetch/validate/commit loop of the Sync Engine
(spec section 4.4 steps 3-6).  One batch of at most `mh` headers is
outstanding at a time; each batch is requested through GetBlockHeaders with
reverse=false and skip=0, validated, and committed in increasing-number
order; the loop repeats until the next start number passes the announced
target.  An error reply, an empty reply or a failed validation abandons the
sync task (retry and fail-over concern other peers and are out of this
model).  The fuel argument bounds the recursion; each successful round
advances `start` by at least one. -/
def syncLoop (mh : Nat) (sv : LESPeerServer) (target : Nat) :
    Nat → Nat → HeaderStore → HeaderStore
  | 0, _, c => c
  | fuel + 1, start, c =>
    if target < start then c
    else
      match sv.handle_get_block_headers
          ⟨0, ⟨BlockNumberOrHash.number start, min mh (target + 1 - start), 0, false⟩⟩ with
      | Except.error _ => c
      | Except.ok reply =>
        if reply.headers.isEmpty then c
        else if validBatch c reply.headers then
          syncLoop mh sv target fuel (start + reply.headers.length)
            (c.persist_headers reply.headers)
        else c

/-- Modelled from the spec: handling of one Announce by the Sync Engine (spec
section 4.4).  Admission: the announce is ignored unless head_td is strictly
greater than the local head's score (step 1).  Planning: with reorg_depth = 0
the missing range starts at local_head_number + 1; with reorg_depth > 0 it
starts at local_head_number - reorg_depth, clamped at genesis (step 2; Nat
subtraction clamps).  The loop then fetches until the target head number is
reached; head_number + 2 rounds always suffice. -/
def process_announce (mh : Nat) (c : HeaderStore) (sv : LESPeerServer) (ann : AnnounceMsg) :
    HeaderStore :=
  if ann.head_td ≤ c.headScore then c
  else
    let start :=
      if ann.reorg_depth = 0 then c.head.block_number + 1
      else c.head.block_number - ann.reorg_depth
    syncLoop mh sv ann.head_number (ann.head_number + 2) start c

/-- Modelled from the spec: registering a new peer triggers an
Announce-equivalent bootstrap from the local head to that peer's head (spec
section 4.4, multi-peer behavior).  The peer's head and total difficulty come
from its handshake Status; admission is as for an announce, and the fetch
starts at the local head number so the received sequence overlaps with the
already-known chain. -/
def register_peer (mh : Nat) (c : HeaderStore) (sv : LESPeerServer) : HeaderStore :=
  let peer_head := sv.headerdb.get_canonical_head
  if sv.headerdb.headScore ≤ c.headScore then c
  else
    syncLoop mh sv peer_head.block_number (peer_head.block_number + 2)
      c.head.block_number c

/-- Send one Announce from the server and let the client process it; mirrors
server.send_announce(...) followed by the client sync in the tests.  If the
server cannot produce the announce the client is unchanged. -/
def announce_and_sync (mh : Nat) (c : HeaderStore) (sv : LESPeerServer)
    (head_number : Option Nat) (reorg_depth : Nat) : HeaderStore × LESPeerServer :=
  match sv.send_announce head_number reorg_depth with
  | none => (c, sv)
  | some (sv2, ann) => (process_announce mh c sv2 ann, sv2)

/-- Cumulative chain score of the chain hs 0, hs 1, ..., hs k: the sum of the
difficulties (spec section 3, ChainScore). -/
def chainScore (hs : Nat → BlockHeader) : Nat → Nat
  | 0 => (hs 0).difficulty
  | k + 1 => chainScore hs k + (hs (k + 1)).difficulty

/-- The stored entries of a store holding exactly the chain hs 0 .. hs k,
newest first. -/
def storedList (hs : Nat → BlockHeader) (k : Nat) : List Stored :=
  ((List.range (k + 1)).reverse).map (fun i => ⟨hs i, chainScore hs i⟩)

/-- The Header Store holding exactly the chain hs 0 .. hs k, with hs k as
canonical head. -/
def chainStore (hs : Nat → BlockHeader) (k : Nat) : HeaderStore :=
  ⟨storedList hs k, hs k, chainScore hs k⟩

/-- A well-formed header chain of length N + 1 indexed by height: block
numbers equal the index, consecutive headers are linked by parent_hash,
non-genesis difficulties are positive, and the content hashes are pairwise
distinct (as for a real digest). -/
abbrev GoodChain (hs : Nat → BlockHeader) (N : Nat) : Prop :=
  (∀ i, i < N + 1 → (hs i).block_number = i) ∧
  (∀ i, i < N → (hs (i + 1)).parent_hash = (hs i).hash) ∧
  (∀ i, i < N + 1 → 1 ≤ i → 1 ≤ (hs i).difficulty) ∧
  (∀ i, i < N + 1 → ∀ j, j < N + 1 → (hs i).hash = (hs j).hash → i = j)

/-- The server's headerdb of the tests (fixture headerdb_mainnet_100): a fresh
store into which the headers numbered 1 to 100 of the chain hs are persisted
on top of the genesis hs 0. -/
def serverDB (hs : Nat → BlockHeader) : HeaderStore :=
  (HeaderStore.init (hs 0)).persist_headers ((List.range' 1 100).map hs)

/-- The competing header built in the reorg tests: BlockHeader.from_parent of
the parent of the current head, same gas_limit, timestamp and coinbase, and
difficulty one higher than the current head's. -/
def reorgHead (hs : Nat → BlockHeader) (n : Nat) : BlockHeader :=
  BlockHeader.from_parent (hs (n - 1)) ((hs (n - 1)).gas_limit)
    ((hs n).difficulty + 1) ((hs n).timestamp) ((hs n).coinbase)

/-- The store obtained from the full chain store of hs 0 .. hs 100 by
persisting the competing header at height 100: the old fork stays stored, the
competing header wins the score comparison and becomes canonical head. -/
def reorgStore (hs : Nat → BlockHeader) : HeaderStore :=
  ⟨⟨reorgHead hs 100, chainScore hs 100 + 1⟩ :: storedList hs 100,
    reorgHead hs 100, chainScore hs 100 + 1⟩

/-- Pointwise update of a chain at one height. -/
def updF (hs : Nat → BlockHeader) (n : Nat) (v : BlockHeader) : Nat → BlockHeader :=
  fun i => if i = n then v else hs i

/-- Scenario A, first phase (test_incremental_header_sync): a fresh client, a
server with the 101-header chain; the server announces head number 10 and the
client syncs. -/
def scenarioA_step1 (mh : Nat) (hs : Nat → BlockHeader) : HeaderStore × LESPeerServer :=
  announce_and_sync mh (HeaderStore.init (hs 0)) ⟨serverDB hs, none⟩ (some 10) 0

/-- Scenario A, second phase: the server then announces head number 100 and
the client syncs again. -/
def scenarioA_step2 (mh : Nat) (hs : Nat → BlockHeader) : HeaderStore × LESPeerServer :=
  announce_and_sync mh (scenarioA_step1 mh hs).1 (scenarioA_step1 mh hs).2 (some 100) 0

/-- Scenario B, first phase (test_full_header_sync_and_reorg): the client
registers the populated server peer and syncs all headers up to its head. -/
def scenarioB_client1 (mh : Nat) (hs : Nat → BlockHeader) : HeaderStore :=
  register_peer mh (HeaderStore.init (hs 0)) ⟨serverDB hs, none⟩

/-- Scenario B: the server's headerdb after persisting the competing header at
height 100. -/
def scenarioB_serverdb (hs : Nat → BlockHeader) : HeaderStore :=
  (serverDB hs).persist_header (reorgHead hs 100)

/-- Scenario B, second phase: the server announces (head_number = 100,
reorg_depth = 1) and the client syncs. -/
def scenarioB_final (mh : Nat) (hs : Nat → BlockHeader) : HeaderStore × LESPeerServer :=
  announce_and_sync mh (scenarioB_client1 mh hs) ⟨scenarioB_serverdb hs, none⟩ (some 100) 1

/-- Scenario C (test_header_sync_with_multi_peers): after the client is synced
with the first peer, a second peer with the competing head at 100 registers
and triggers its own bootstrap sync. -/
def scenarioC_client2 (mh : Nat) (hs : Nat → BlockHeader) : HeaderStore :=
  register_peer mh (scenarioB_client1 mh hs) ⟨scenarioB_serverdb hs, none⟩

/-- The store reachable from a genesis-only store by persisting an arbitrary
sequence of headers (any interleaving of sync commits goes through
persist_header, so any sequence of syncs produces such a store). -/
def c1Store (g : BlockHeader) (batch : List BlockHeader) : HeaderStore :=
  (HeaderStore.init g).persist_headers batch

/-- A header is present in a store. -/
def memHeader (s : HeaderStore) (h : BlockHeader) : Prop :=
  ∃ st, st ∈ s.stored ∧ st.header = h

/-- Store well-formedness: the canonical head is stored, and every stored
header either has block number 0 or has its parent stored with block number
one less.  Preserved by persist_header and hence by any sequence of syncs. -/
def WFStore (s : HeaderStore) : Prop :=
  memHeader s s.head ∧
  ∀ st, st ∈ s.stored → st.header.block_number = 0 ∨
    ∃ p, s.lookup st.header.parent_hash = some p ∧
      st.header.block_number = p.header.block_number + 1

/-- Concrete genesis header used as a witness input. -/
def genesisTest : BlockHeader := ⟨0, 0, 17, 0, 0, 1000⟩

/-- Concrete witness chain: 101 linked headers built with from_parent on top
of genesisTest. -/
def mkChain : Nat → BlockHeader
  | 0 => genesisTest
  | n + 1 => BlockHeader.from_parent (mkChain n) 1000 1 n 5

/-- Small concrete store used as a witness input for the handler claims:
genesisTest plus the chain headers 1 to 3. -/
def smallDB : HeaderStore :=
  (HeaderStore.init genesisTest).persist_headers ((List.range' 1 3).map mkChain)

/-- Small concrete server peer used as a witness input. -/
def svSmall : LESPeerServer := ⟨smallDB, none⟩

/-- Chain identifier constants of trinity.constants, as selected by main()
(trinity/main.py).  Modelled from the spec scope: only the Ropsten identifier
is ever selected; mainnet is a TODO in the source. -/
inductive ChainIdentifier where
  | ropsten
  | mainnet
deriving DecidableEq

/-- Sync mode constants of trinity.constants, as selected by main()
(trinity/main.py).  Only light sync is ever selected; full sync is a TODO in
the source. -/
inductive SyncMode where
  | light
  | full
deriving DecidableEq

/-- The parsed command-line flags of trinity/main.py that feed the chain
identifier and sync-mode selection; store_true flags, so each is a Bool. -/
structure ParsedArgs where
  ropsten : Bool
  light : Bool
deriving DecidableEq

/-- Chain-identifier selection of main(), embedded from trinity/main.py lines
120-124: if args.ropsten the identifier is ROPSTEN, else (TODO mainnet) it is
also ROPSTEN. -/
def main_chain_identifier (args : ParsedArgs) : ChainIdentifier :=
  if args.ropsten then ChainIdentifier.ropsten else ChainIdentifier.ropsten

/-- Sync-mode selection of main(), embedded from trinity/main.py lines
126-130: if args.light the mode is SYNC_LIGHT, else (TODO sync-mode flag) it
is also SYNC_LIGHT. -/
def main_sync_mode (args : ParsedArgs) : SyncMode :=
  if args.light then SyncMode.light else SyncMode.light

/-! ### Basic store lemmas -/

theorem lookup_property {s : HeaderStore} {q : Nat} {st : Stored}
    (h : s.lookup q = some st) : st ∈ s.stored ∧ st.header.hash = q := by
  refine ⟨List.mem_of_find?_eq_some h, ?_⟩
  have hp := List.find?_some h
  simpa using hp

theorem persist_skip {s : HeaderStore} {h : BlockHeader}
    (hp : (s.lookup h.hash).isSome = true) : s.persist_header h = s := by
  simp [HeaderStore.persist_header, hp]

theorem persist_headers_nil (s : HeaderStore) : s.persist_headers [] = s := rfl

theorem persist_headers_cons (s : HeaderStore) (h : BlockHeader) (t : List BlockHeader) :
    s.persist_headers (h :: t) = (s.persist_header h).persist_headers t := rfl

theorem lookup_mk (l : List Stored) (hd : BlockHeader) (hsc : Nat) (q : Nat) :
    HeaderStore.lookup ⟨l, hd, hsc⟩ q = l.find? (fun st => st.header.hash == q) := rfl

theorem find?_hash_cons_pos {a : Stored} {q : Nat} (l : List Stored)
    (h : a.header.hash = q) :
    (a :: l).find? (fun st => st.header.hash == q) = some a :=
  List.find?_cons_of_pos l (by simp [h])

theorem find?_hash_cons_neg {a : Stored} {q : Nat} (l : List Stored)
    (h : ¬ a.header.hash = q) :
    (a :: l).find? (fun st => st.header.hash == q) =
      l.find? (fun st => st.header.hash == q) :=
  List.find?_cons_of_neg l (by simpa using h)

/-! ### Chain-store lemmas -/

theorem storedList_zero (hs : Nat → BlockHeader) :
    storedList hs 0 = [⟨hs 0, chainScore hs 0⟩] := by
  simp [storedList, List.range_succ]

theorem storedList_succ (hs : Nat → BlockHeader) (k : Nat) :
    storedList hs (k + 1) = ⟨hs (k + 1), chainScore hs (k + 1)⟩ :: storedList hs k := by
  simp [storedList, List.range_succ]

theorem init_eq_chainStore (hs : Nat → BlockHeader) :
    HeaderStore.init (hs 0) = chainStore hs 0 := by
  simp [HeaderStore.init, chainStore, storedList_zero, chainScore]

theorem lookup_chainStore_none (hs : Nat → BlockHeader) (q : Nat) :
    ∀ k, (∀ i, i ≤ k → q ≠ (hs i).hash) → (chainStore hs k).lookup q = none := by
  intro k
  induction k with
  | zero =>
    intro hq
    have hne : ¬ ((⟨hs 0, chainScore hs 0⟩ : Stored).header.hash = q) :=
      fun h => hq 0 (Nat.le_refl 0) h.symm
    show (storedList hs 0).find? _ = none
    rw [storedList_zero, find?_hash_cons_neg _ hne]
    rfl
  | succ k ih =>
    intro hq
    calc (chainStore hs (k + 1)).lookup q
        = (storedList hs (k + 1)).find? (fun st => st.header.hash == q) := rfl
      _ = (storedList hs k).find? (fun st => st.header.hash == q) := by
          rw [storedList_succ]
          exact find?_hash_cons_neg _ (fun h => hq (k + 1) (Nat.le_refl _) h.symm)
      _ = none := ih (fun i hi => hq i (Nat.le_succ_of_le hi))

theorem lookup_chainStore {hs : Nat → BlockHeader} {N : Nat} (HC : GoodChain hs N) :
    ∀ k, k ≤ N → ∀ i, i ≤ k →
      (chainStore hs k).lookup ((hs i).hash) = some ⟨hs i, chainScore hs i⟩ := by
  obtain ⟨_, _, _, Hnodup⟩ := HC
  intro k
  induction k with
  | zero =>
    intro _ i hi
    interval_cases i
    simp [chainStore, lookup_mk, storedList_zero, List.find?]
  | succ k ih =>
    intro hk i hi
    rcases Nat.eq_or_lt_of_le hi with he | hlt
    · subst he
      show (storedList hs (k + 1)).find? _ = _
      rw [storedList_succ]
      exact find?_hash_cons_pos _ rfl
    · have hik : i ≤ k := by omega
      have hne : ¬ (hs (k + 1)).hash = (hs i).hash := by
        intro h
        have := Hnodup (k + 1) (by omega) i (by omega) h
        omega
      calc (chainStore hs (k + 1)).lookup ((hs i).hash)
          = (storedList hs (k + 1)).find? (fun st => st.header.hash == (hs i).hash) := rfl
        _ = (storedList hs k).find? (fun st => st.header.hash == (hs i).hash) := by
            rw [storedList_succ]
            exact find?_hash_cons_neg _ hne
        _ = some ⟨hs i, chainScore hs i⟩ := ih (by omega) i hik

theorem chainScore_succ (hs : Nat → BlockHeader) (k : Nat) :
    chainScore hs (k + 1) = chainScore hs k + (hs (k + 1)).difficulty := rfl

theorem chainScore_lt {hs : Nat → BlockHeader} {N : Nat} (HC : GoodChain hs N) :
    ∀ b a, a < b → b ≤ N → chainScore hs a < chainScore hs b := by
  obtain ⟨_, _, Hdiff, _⟩ := HC
  intro b
  induction b with
  | zero => omega
  | succ k ih =>
    intro a ha hb
    have hd : 1 ≤ (hs (k + 1)).difficulty := Hdiff (k + 1) (by omega) (by omega)
    have hk : chainScore hs k < chainScore hs (k + 1) := by
      rw [chainScore_succ]; omega
    rcases Nat.eq_or_lt_of_le (Nat.le_of_lt_succ ha) with he | hlt
    · subst he; exact hk
    · exact Nat.lt_trans (ih a hlt (by omega)) hk

theorem persist_chainStore_succ {hs : Nat → BlockHeader} {N : Nat} (HC : GoodChain hs N)
    {k : Nat} (hk : k + 1 ≤ N) :
    (chainStore hs k).persist_header (hs (k + 1)) = chainStore hs (k + 1) := by
  obtain ⟨Hnum, Hlink, Hdiff, Hnodup⟩ := HC
  have h1 : (chainStore hs k).lookup ((hs (k + 1)).hash) = none := by
    apply lookup_chainStore_none
    intro i hi h
    have := Hnodup (k + 1) (by omega) i (by omega) h
    omega
  have h2 : (chainStore hs k).lookup ((hs (k + 1)).parent_hash) =
      some ⟨hs k, chainScore hs k⟩ := by
    rw [Hlink k (by omega)]
    exact lookup_chainStore ⟨Hnum, Hlink, Hdiff, Hnodup⟩ k (by omega) k (Nat.le_refl k)
  have h3 : (hs (k + 1)).block_number = (hs k).block_number + 1 := by
    rw [Hnum (k + 1) (by omega), Hnum k (by omega)]
  have h4 : (chainStore hs k).headScore < chainScore hs k + (hs (k + 1)).difficulty := by
    have := Hdiff (k + 1) (by omega) (by omega)
    show chainScore hs k < _
    omega
  simp only [HeaderStore.persist_header, h1, h2, Option.isSome_none, Bool.false_eq_true,
    if_false, h3, if_pos rfl, if_pos h4]
  show (⟨_ :: (chainStore hs k).stored, _, _⟩ : HeaderStore) = _
  rw [chainStore, chainStore, storedList_succ, chainScore_succ]

theorem persist_headers_range {hs : Nat → BlockHeader} {N : Nat} (HC : GoodChain hs N) :
    ∀ d a, a + d ≤ N →
      (chainStore hs a).persist_headers ((List.range' (a + 1) d).map hs) =
        chainStore hs (a + d) := by
  intro d
  induction d with
  | zero => intro a _; simp [persist_headers_nil]
  | succ d ih =>
    intro a ha
    rw [List.range'_succ, List.map_cons, persist_headers_cons,
      persist_chainStore_succ HC (by omega)]
    have := ih (a + 1) (by omega)
    rw [show a + 1 + d = a + (d + 1) from by omega] at this
    exact this

theorem serverDB_eq {hs : Nat → BlockHeader} (HC : GoodChain hs 100) :
    serverDB hs = chainStore hs 100 := by
  rw [serverDB, init_eq_chainStore]
  have := persist_headers_range HC 100 0 (by omega)
  simpa using this

/-! ### Canonical-chain lemmas -/

theorem ancestorAt_zero (s : HeaderStore) (h : BlockHeader) :
    s.ancestorAt h 0 = some h := rfl

theorem ancestorAt_succ_eq (s : HeaderStore) (h : BlockHeader) (k : Nat) :
    s.ancestorAt h (k + 1) =
      match s.lookup h.parent_hash with
      | none => none
      | some p => s.ancestorAt p.header k := rfl

theorem ancestorAt_of_lookup {s : HeaderStore} {hs : Nat → BlockHeader} {N K : Nat}
    (HC : GoodChain hs N) (hK : K ≤ N)
    (hlook : ∀ i, i ≤ K → s.lookup ((hs i).hash) = some ⟨hs i, chainScore hs i⟩) :
    ∀ j m, m ≤ K → j ≤ m → s.ancestorAt (hs m) j = some (hs (m - j)) := by
  obtain ⟨Hnum, Hlink, _, _⟩ := HC
  intro j
  induction j with
  | zero =>
    intro m _ _
    simp [ancestorAt_zero]
  | succ j ih =>
    intro m hm hj
    have hpar : (hs m).parent_hash = (hs (m - 1)).hash := by
      have := Hlink (m - 1) (by omega)
      rw [show m - 1 + 1 = m from by omega] at this
      exact this
    rw [ancestorAt_succ_eq, hpar, hlook (m - 1) (by omega)]
    show s.ancestorAt (hs (m - 1)) j = some (hs (m - (j + 1)))
    rw [show m - (j + 1) = m - 1 - j from by omega]
    exact ih (m - 1) (by omega) (by omega)

theorem canonical_chainStore {hs : Nat → BlockHeader} {N : Nat} (HC : GoodChain hs N)
    {k : Nat} (hk : k ≤ N) :
    ∀ i, i ≤ k → (chainStore hs k).get_canonical_block_header_by_number i = some (hs i) := by
  intro i hi
  simp only [HeaderStore.get_canonical_block_header_by_number]
  show (if i ≤ (hs k).block_number then (chainStore hs k).ancestorAt (hs k)
    ((hs k).block_number - i) else none) = some (hs i)
  rw [HC.1 k (by omega), if_pos hi]
  have := ancestorAt_of_lookup HC hk (lookup_chainStore HC k hk) (k - i) k
    (Nat.le_refl k) (by omega)
  rw [show k - (k - i) = i from by omega] at this
  exact this

theorem lookup_stored (s : HeaderStore) (q : Nat) :
    s.lookup q = s.stored.find? (fun st => st.header.hash == q) := rfl

theorem reorgStore_stored (hs : Nat → BlockHeader) :
    (reorgStore hs).stored =
      ⟨reorgHead hs 100, chainScore hs 100 + 1⟩ :: storedList hs 100 := rfl

theorem lookup_reorgStore {hs : Nat → BlockHeader} (HC : GoodChain hs 100)
    (Hfresh : ∀ i, i < 101 → (reorgHead hs 100).hash ≠ (hs i).hash) :
    ∀ i, i ≤ 100 → (reorgStore hs).lookup ((hs i).hash) = some ⟨hs i, chainScore hs i⟩ := by
  intro i hi
  have hne : ¬ ((⟨reorgHead hs 100, chainScore hs 100 + 1⟩ : Stored).header.hash =
      (hs i).hash) := Hfresh i (by omega)
  rw [lookup_stored, reorgStore_stored, find?_hash_cons_neg _ hne]
  exact lookup_chainStore HC 100 (Nat.le_refl _) i hi

theorem lookup_reorgStore_new (hs : Nat → BlockHeader) :
    (reorgStore hs).lookup ((reorgHead hs 100).hash) =
      some ⟨reorgHead hs 100, chainScore hs 100 + 1⟩ := by
  rw [lookup_stored, reorgStore_stored]
  exact find?_hash_cons_pos _ rfl

theorem reorgHead_block_number {hs : Nat → BlockHeader} (HC : GoodChain hs 100) :
    (reorgHead hs 100).block_number = 100 := by
  show (hs 99).block_number + 1 = 100
  rw [HC.1 99 (by omega)]

theorem canonical_reorgStore {hs : Nat → BlockHeader} (HC : GoodChain hs 100)
    (Hfresh : ∀ i, i < 101 → (reorgHead hs 100).hash ≠ (hs i).hash) :
    ∀ i, i ≤ 100 → (reorgStore hs).get_canonical_block_header_by_number i =
      some (updF hs 100 (reorgHead hs 100) i) := by
  intro i hi
  simp only [HeaderStore.get_canonical_block_header_by_number]
  show (if i ≤ (reorgHead hs 100).block_number then (reorgStore hs).ancestorAt
    (reorgHead hs 100) ((reorgHead hs 100).block_number - i) else none) = _
  rw [reorgHead_block_number HC, if_pos hi]
  rcases Nat.eq_or_lt_of_le hi with he | hlt
  · subst he
    rw [show (100 : Nat) - 100 = 0 from rfl, ancestorAt_zero]
    simp [updF]
  · obtain ⟨d, hd⟩ : ∃ d, 100 - i = d + 1 := ⟨100 - i - 1, by omega⟩
    rw [hd, ancestorAt_succ_eq,
      show (reorgHead hs 100).parent_hash = (hs 99).hash from rfl,
      lookup_reorgStore HC Hfresh 99 (by omega)]
    show (reorgStore hs).ancestorAt (hs 99) d = _
    have hx := ancestorAt_of_lookup (s := reorgStore hs) HC (by omega : (99 : Nat) ≤ 100)
      (fun j hj => lookup_reorgStore HC Hfresh j (by omega)) d 99 (by omega) (by omega)
    rw [hx, show 99 - d = i from by omega]
    simp [updF, show ¬ i = 100 from by omega]

theorem persist_reorgStore {hs : Nat → BlockHeader} (HC : GoodChain hs 100)
    (Hfresh : ∀ i, i < 101 → (reorgHead hs 100).hash ≠ (hs i).hash) :
    (chainStore hs 100).persist_header (reorgHead hs 100) = reorgStore hs := by
  have h1 : (chainStore hs 100).lookup ((reorgHead hs 100).hash) = none :=
    lookup_chainStore_none hs _ 100 (fun i hi => Hfresh i (by omega))
  have h2 : (chainStore hs 100).lookup ((reorgHead hs 100).parent_hash) =
      some ⟨hs 99, chainScore hs 99⟩ := by
    rw [show (reorgHead hs 100).parent_hash = (hs 99).hash from rfl]
    exact lookup_chainStore HC 100 (Nat.le_refl _) 99 (by omega)
  have h3 : (reorgHead hs 100).block_number = (hs 99).block_number + 1 := rfl
  have h4 : (chainStore hs 100).headScore <
      chainScore hs 99 + (reorgHead hs 100).difficulty := by
    show chainScore hs 100 < _
    have hd : (reorgHead hs 100).difficulty = (hs 100).difficulty + 1 := rfl
    have h100 : chainScore hs 100 = chainScore hs 99 + (hs 100).difficulty := rfl
    omega
  simp only [HeaderStore.persist_header, h1, h2, Option.isSome_none, Bool.false_eq_true,
    if_false, h3, if_pos rfl, if_pos h4]
  have hsc : chainScore hs 99 + (reorgHead hs 100).difficulty = chainScore hs 100 + 1 := by
    have hd : (reorgHead hs 100).difficulty = (hs 100).difficulty + 1 := rfl
    have h100 : chainScore hs 100 = chainScore hs 99 + (hs 100).difficulty := rfl
    omega
  rw [hsc]
  rfl

/-! ### Sync-loop lemmas -/

theorem collectCanonical_map (db : HeaderStore) (hs : Nat → BlockHeader) :
    ∀ d a, (∀ i, a ≤ i → i < a + d →
        db.get_canonical_block_header_by_number i = some (hs i)) →
      collectCanonical db (List.range' a d) = Except.ok ((List.range' a d).map hs) := by
  intro d
  induction d with
  | zero => intro a _; rfl
  | succ d ih =>
    intro a h
    have h0 : db.get_canonical_block_header_by_number a = some (hs a) :=
      h a (Nat.le_refl a) (by omega)
    show (match db.get_canonical_block_header_by_number a with
      | none => Except.error HandlerError.headerNotFound
      | some hd => (collectCanonical db (List.range' (a + 1) d)).map (fun t => hd :: t)) = _
    rw [h0, ih (a + 1) (fun i h1 h2 => h i (by omega) (by omega))]
    rfl

theorem handle_ok (sv : LESPeerServer) (hs : Nat → BlockHeader) (rid n mh2 : Nat)
    (hend : n + mh2 ≤ sv.head_number + 1)
    (hcan : ∀ i, n ≤ i → i < n + mh2 →
      sv.headerdb.get_canonical_block_header_by_number i = some (hs i)) :
    sv.handle_get_block_headers ⟨rid, ⟨BlockNumberOrHash.number n, mh2, 0, false⟩⟩ =
      Except.ok ⟨rid, (List.range' n mh2).map hs, 0⟩ := by
  have hmin : min (sv.head_number + 1) (n + mh2) = n + mh2 := Nat.min_eq_right hend
  show (match collectCanonical sv.headerdb
      (List.range' n (min (sv.head_number + 1) (n + mh2) - n)) with
    | Except.error e => Except.error e
    | Except.ok headers => Except.ok (⟨rid, headers, 0⟩ : BlockHeadersMsg)) = _
  rw [hmin, Nat.add_sub_cancel_left, collectCanonical_map sv.headerdb hs mh2 n hcan]

theorem linkedBatch_range {hs : Nat → BlockHeader} {N : Nat} (HC : GoodChain hs N) :
    ∀ d a, a + d ≤ N + 1 → linkedBatch ((List.range' a d).map hs) = true := by
  intro d
  induction d with
  | zero => intro a _; rfl
  | succ d ih =>
    intro a ha
    cases d with
    | zero => rfl
    | succ e =>
      have h1 : (hs (a + 1)).parent_hash = (hs a).hash := HC.2.1 a (by omega)
      have h2 : (hs (a + 1)).block_number = (hs a).block_number + 1 := by
        rw [HC.1 (a + 1) (by omega), HC.1 a (by omega)]
      show (((hs (a + 1)).parent_hash == (hs a).hash) &&
        ((hs (a + 1)).block_number == (hs a).block_number + 1) &&
        linkedBatch (hs (a + 1) :: (List.range' (a + 2) e).map hs)) = true
      rw [h1, h2]
      simp only [beq_self_eq_true, Bool.true_and]
      have := ih (a + 1) (by omega)
      show linkedBatch ((List.range' (a + 1) (e + 1)).map hs) = true
      exact this

theorem syncLoop_succ (mh : Nat) (sv : LESPeerServer) (target fuel start : Nat)
    (c : HeaderStore) :
    syncLoop mh sv target (fuel + 1) start c =
      if target < start then c
      else
        match sv.handle_get_block_headers
            ⟨0, ⟨BlockNumberOrHash.number start, min mh (target + 1 - start), 0, false⟩⟩ with
        | Except.error _ => c
        | Except.ok reply =>
          if reply.headers.isEmpty then c
          else if validBatch c reply.headers then
            syncLoop mh sv target fuel (start + reply.headers.length)
              (c.persist_headers reply.headers)
          else c := rfl

theorem syncLoop_run {hs : Nat → BlockHeader} {N : Nat} (HC : GoodChain hs N)
    {mh target : Nat} (hmh : 1 ≤ mh) (hT : target ≤ N) (sv : LESPeerServer)
    (hH : target ≤ sv.head_number)
    (hcan : ∀ i, i ≤ target →
      sv.headerdb.get_canonical_block_header_by_number i = some (hs i)) :
    ∀ fuel c, c ≤ target → target - c < fuel →
      syncLoop mh sv target fuel (c + 1) (chainStore hs c) = chainStore hs target := by
  intro fuel
  induction fuel with
  | zero => intro c _ h; omega
  | succ fuel ih =>
    intro c hc hfc
    rw [syncLoop_succ]
    by_cases hcc : target < c + 1
    · rw [if_pos hcc]
      have hce : c = target := by omega
      rw [hce]
    · rw [if_neg hcc]
      have hclt : c < target := by omega
      have hrw : target + 1 - (c + 1) = target - c := by omega
      rw [hrw]
      set cnt := min mh (target - c) with hcnt
      have hcnt1 : 1 ≤ cnt := le_min hmh (by omega)
      have hcntle : cnt ≤ target - c := min_le_right _ _
      have hhandle := handle_ok sv hs 0 (c + 1) cnt (by omega)
        (fun i h1 h2 => hcan i (by omega))
      rw [hhandle]
      show (if ((List.range' (c + 1) cnt).map hs).isEmpty then chainStore hs c
        else if validBatch (chainStore hs c) ((List.range' (c + 1) cnt).map hs) then
          syncLoop mh sv target fuel (c + 1 + ((List.range' (c + 1) cnt).map hs).length)
            ((chainStore hs c).persist_headers ((List.range' (c + 1) cnt).map hs))
        else chainStore hs c) = chainStore hs target
      obtain ⟨cm, hcm⟩ : ∃ cm, cnt = cm + 1 := ⟨cnt - 1, by omega⟩
      have hemp : ((List.range' (c + 1) cnt).map hs).isEmpty = false := by
        rw [hcm]; rfl
      have hpar : (hs (c + 1)).parent_hash = (hs c).hash := HC.2.1 c (by omega)
      have hanch : batchAnchored (chainStore hs c) ((List.range' (c + 1) cnt).map hs) =
          true := by
        rw [hcm]
        show (((chainStore hs c).lookup (hs (c + 1)).parent_hash).isSome ||
          ((chainStore hs c).lookup (hs (c + 1)).hash).isSome) = true
        rw [hpar, lookup_chainStore HC c (by omega) c (Nat.le_refl c)]
        rfl
      have hlink := linkedBatch_range HC cnt (c + 1) (by omega)
      have hvalid : validBatch (chainStore hs c) ((List.range' (c + 1) cnt).map hs) =
          true := by
        show (batchAnchored _ _ && linkedBatch _) = true
        rw [hanch, hlink]
        rfl
      have hlen : ((List.range' (c + 1) cnt).map hs).length = cnt := by
        rw [List.length_map, List.length_range']
      rw [hemp, hvalid, hlen]
      simp only [Bool.false_eq_true, if_false, if_pos rfl]
      rw [persist_headers_range HC cnt c (by omega),
        show c + 1 + cnt = (c + cnt) + 1 from by omega]
      exact ih (c + cnt) (by omega) (by omega)

theorem syncLoop_run_overlap {hs : Nat → BlockHeader} {N : Nat} (HC : GoodChain hs N)
    {mh target : Nat} (hmh : 1 ≤ mh) (hT : target ≤ N) (sv : LESPeerServer)
    (hH : target ≤ sv.head_number)
    (hcan : ∀ i, i ≤ target →
      sv.headerdb.get_canonical_block_header_by_number i = some (hs i)) :
    ∀ fuel c, c ≤ target → target - c < fuel →
      syncLoop mh sv target (fuel + 1) c (chainStore hs c) = chainStore hs target := by
  intro fuel c hc hfc
  rw [syncLoop_succ, if_neg (by omega : ¬ target < c)]
  set cnt := min mh (target + 1 - c) with hcnt
  have hcnt1 : 1 ≤ cnt := le_min hmh (by omega)
  have hcntle : cnt ≤ target + 1 - c := min_le_right _ _
  have hhandle := handle_ok sv hs 0 c cnt (by omega) (fun i h1 h2 => hcan i (by omega))
  rw [hhandle]
  show (if ((List.range' c cnt).map hs).isEmpty then chainStore hs c
    else if validBatch (chainStore hs c) ((List.range' c cnt).map hs) then
      syncLoop mh sv target fuel (c + ((List.range' c cnt).map hs).length)
        ((chainStore hs c).persist_headers ((List.range' c cnt).map hs))
    else chainStore hs c) = chainStore hs target
  obtain ⟨cm, hcm⟩ : ∃ cm, cnt = cm + 1 := ⟨cnt - 1, by omega⟩
  have hemp : ((List.range' c cnt).map hs).isEmpty = false := by
    rw [hcm]; rfl
  have hsome : ((chainStore hs c).lookup ((hs c).hash)).isSome = true := by
    rw [lookup_chainStore HC c (by omega) c (Nat.le_refl c)]
    rfl
  have hanch : batchAnchored (chainStore hs c) ((List.range' c cnt).map hs) = true := by
    rw [hcm]
    show (((chainStore hs c).lookup (hs c).parent_hash).isSome ||
      ((chainStore hs c).lookup (hs c).hash).isSome) = true
    rw [hsome, Bool.or_true]
  have hlink := linkedBatch_range HC cnt c (by omega)
  have hvalid : validBatch (chainStore hs c) ((List.range' c cnt).map hs) = true := by
    show (batchAnchored _ _ && linkedBatch _) = true
    rw [hanch, hlink]
    rfl
  have hlen : ((List.range' c cnt).map hs).length = cnt := by
    rw [List.length_map, List.length_range']
  rw [hemp, hvalid, hlen]
  simp only [Bool.false_eq_true, if_false, if_pos rfl]
  have hpersist : (chainStore hs c).persist_headers ((List.range' c cnt).map hs) =
      chainStore hs (c + cm) := by
    rw [hcm]
    show (chainStore hs c).persist_headers
      (hs c :: (List.range' (c + 1) cm).map hs) = _
    rw [persist_headers_cons, persist_skip hsome]
    exact persist_headers_range HC cm c (by omega)
  rw [hpersist, show c + cnt = (c + cm) + 1 from by omega]
  exact syncLoop_run HC hmh hT sv hH hcan fuel (c + cm) (by omega) (by omega)

/-! ### Scenario lemmas -/

theorem send_announce_some (db : HeaderStore) (prev : Option Nat) (n depth : Nat)
    (hd : BlockHeader) (sc : Nat)
    (hcn : db.get_canonical_block_header_by_number n = some hd)
    (hsc : db.get_score hd.hash = some sc) :
    LESPeerServer.send_announce ⟨db, prev⟩ (some n) depth =
      some (⟨db, some n⟩, ⟨hd.hash, hd.block_number, sc, depth⟩) := by
  show (match db.get_canonical_block_header_by_number
      (LESPeerServer.head_number ⟨db, some n⟩) with
    | none => none
    | some header =>
      match db.get_score header.hash with
      | none => none
      | some td =>
        some ((⟨db, some n⟩ : LESPeerServer),
          (⟨header.hash, header.block_number, td, depth⟩ : AnnounceMsg))) = _
  have hn : LESPeerServer.head_number ⟨db, some n⟩ = n := rfl
  rw [hn, hcn]
  show (match db.get_score hd.hash with
    | none => none
    | some td =>
      some ((⟨db, some n⟩ : LESPeerServer),
        (⟨hd.hash, hd.block_number, td, depth⟩ : AnnounceMsg))) = _
  rw [hsc]

theorem updF_goodchain {hs : Nat → BlockHeader} (HC : GoodChain hs 100)
    (Hfresh : ∀ i, i < 101 → (reorgHead hs 100).hash ≠ (hs i).hash) :
    GoodChain (updF hs 100 (reorgHead hs 100)) 100 := by
  obtain ⟨Hnum, Hlink, Hdiff, Hnodup⟩ := HC
  refine ⟨?_, ?_, ?_, ?_⟩
  · intro i hi
    by_cases h : i = 100
    · subst h
      show (reorgHead hs 100).block_number = 100
      exact reorgHead_block_number ⟨Hnum, Hlink, Hdiff, Hnodup⟩
    · simpa [updF, h] using Hnum i hi
  · intro i hi
    by_cases h : i = 99
    · subst h
      show (updF hs 100 (reorgHead hs 100) 100).parent_hash =
        (updF hs 100 (reorgHead hs 100) 99).hash
      simp only [updF, if_pos rfl, show ¬ (99 = 100) from by omega, if_false]
      rfl
    · have h1 : ¬ (i + 1 = 100) := by omega
      have h2 : ¬ (i = 100) := by omega
      simpa [updF, h1, h2] using Hlink i hi
  · intro i hi h1
    by_cases h : i = 100
    · subst h
      show 1 ≤ (reorgHead hs 100).difficulty
      show 1 ≤ (hs 100).difficulty + 1
      omega
    · simpa [updF, h] using Hdiff i hi h1
  · intro i hi j hj hij
    by_cases h : i = 100 <;> by_cases h2 : j = 100
    · omega
    · subst h
      simp only [updF, if_pos rfl, h2, if_false] at hij
      exact absurd hij (Hfresh j hj)
    · subst h2
      simp only [updF, if_pos rfl, h, if_false] at hij
      exact absurd hij.symm (Hfresh i hi)
    · simp only [updF, h, h2, if_false] at hij
      exact Hnodup i hi j hj hij

theorem scenarioA_step1_eq {hs : Nat → BlockHeader} {mh : Nat} (hmh : 1 ≤ mh)
    (HC : GoodChain hs 100) :
    scenarioA_step1 mh hs = (chainStore hs 10, ⟨chainStore hs 100, some 10⟩) := by
  have hS := serverDB_eq HC
  show announce_and_sync mh (HeaderStore.init (hs 0)) ⟨serverDB hs, none⟩ (some 10) 0 = _
  rw [hS]
  have hcan10 : (chainStore hs 100).get_canonical_block_header_by_number 10 =
      some (hs 10) := canonical_chainStore HC (Nat.le_refl _) 10 (by omega)
  have hscore10 : (chainStore hs 100).get_score ((hs 10).hash) =
      some (chainScore hs 10) := by
    show ((chainStore hs 100).lookup ((hs 10).hash)).map _ = _
    rw [lookup_chainStore HC 100 (Nat.le_refl _) 10 (by omega)]
    rfl
  have hann := send_announce_some (chainStore hs 100) none 10 0 (hs 10)
    (chainScore hs 10) hcan10 hscore10
  simp only [announce_and_sync]
  rw [hann]
  show (process_announce mh (HeaderStore.init (hs 0)) ⟨chainStore hs 100, some 10⟩
    ⟨(hs 10).hash, (hs 10).block_number, chainScore hs 10, 0⟩,
    (⟨chainStore hs 100, some 10⟩ : LESPeerServer)) = _
  refine congrArg (fun st => (st, (⟨chainStore hs 100, some 10⟩ : LESPeerServer))) ?_
  have hadm : ¬ (chainScore hs 10 ≤ (HeaderStore.init (hs 0)).headScore) := by
    show ¬ (chainScore hs 10 ≤ (hs 0).difficulty)
    have hlt := chainScore_lt HC 10 0 (by omega) (by omega)
    have h0 : chainScore hs 0 = (hs 0).difficulty := rfl
    omega
  show (if chainScore hs 10 ≤ (HeaderStore.init (hs 0)).headScore then HeaderStore.init (hs 0)
    else syncLoop mh ⟨chainStore hs 100, some 10⟩ (hs 10).block_number
      ((hs 10).block_number + 2)
      (if (0 : Nat) = 0 then (HeaderStore.init (hs 0)).head.block_number + 1
        else (HeaderStore.init (hs 0)).head.block_number - 0)
      (HeaderStore.init (hs 0))) = chainStore hs 10
  rw [if_neg hadm, if_pos rfl]
  have hb10 : (hs 10).block_number = 10 := HC.1 10 (by omega)
  have hb0 : (HeaderStore.init (hs 0)).head.block_number = 0 := HC.1 0 (by omega)
  rw [hb10, hb0, init_eq_chainStore hs]
  have hH : (10 : Nat) ≤ LESPeerServer.head_number ⟨chainStore hs 100, some 10⟩ :=
    Nat.le_refl 10
  have hcanS : ∀ i, i ≤ 10 →
      (chainStore hs 100).get_canonical_block_header_by_number i = some (hs i) :=
    fun i hi => canonical_chainStore HC (Nat.le_refl _) i (by omega)
  exact syncLoop_run HC hmh (by omega) ⟨chainStore hs 100, some 10⟩ hH hcanS (10 + 2) 0
    (by omega) (by omega)

theorem scenarioA_step2_eq {hs : Nat → BlockHeader} {mh : Nat} (hmh : 1 ≤ mh)
    (HC : GoodChain hs 100) :
    scenarioA_step2 mh hs = (chainStore hs 100, ⟨chainStore hs 100, some 100⟩) := by
  show announce_and_sync mh (scenarioA_step1 mh hs).1 (scenarioA_step1 mh hs).2
    (some 100) 0 = _
  rw [scenarioA_step1_eq hmh HC]
  have hcan100 : (chainStore hs 100).get_canonical_block_header_by_number 100 =
      some (hs 100) := canonical_chainStore HC (Nat.le_refl _) 100 (Nat.le_refl _)
  have hscore100 : (chainStore hs 100).get_score ((hs 100).hash) =
      some (chainScore hs 100) := by
    show ((chainStore hs 100).lookup ((hs 100).hash)).map _ = _
    rw [lookup_chainStore HC 100 (Nat.le_refl _) 100 (Nat.le_refl _)]
    rfl
  have hann := send_announce_some (chainStore hs 100) (some 10) 100 0 (hs 100)
    (chainScore hs 100) hcan100 hscore100
  simp only [announce_and_sync]
  rw [hann]
  show (process_announce mh (chainStore hs 10) ⟨chainStore hs 100, some 100⟩
    ⟨(hs 100).hash, (hs 100).block_number, chainScore hs 100, 0⟩,
    (⟨chainStore hs 100, some 100⟩ : LESPeerServer)) = _
  refine congrArg (fun st => (st, (⟨chainStore hs 100, some 100⟩ : LESPeerServer))) ?_
  have hadm : ¬ (chainScore hs 100 ≤ (chainStore hs 10).headScore) := by
    show ¬ (chainScore hs 100 ≤ chainScore hs 10)
    have hlt := chainScore_lt HC 100 10 (by omega) (by omega)
    omega
  show (if chainScore hs 100 ≤ (chainStore hs 10).headScore then chainStore hs 10
    else syncLoop mh ⟨chainStore hs 100, some 100⟩ (hs 100).block_number
      ((hs 100).block_number + 2)
      (if (0 : Nat) = 0 then (chainStore hs 10).head.block_number + 1
        else (chainStore hs 10).head.block_number - 0)
      (chainStore hs 10)) = chainStore hs 100
  rw [if_neg hadm, if_pos rfl]
  have hb100 : (hs 100).block_number = 100 := HC.1 100 (by omega)
  have hb10 : (chainStore hs 10).head.block_number = 10 := HC.1 10 (by omega)
  rw [hb100, hb10]
  have hH : (100 : Nat) ≤ LESPeerServer.head_number ⟨chainStore hs 100, some 100⟩ :=
    Nat.le_refl 100
  have hcanS : ∀ i, i ≤ 100 →
      (chainStore hs 100).get_canonical_block_header_by_number i = some (hs i) :=
    fun i hi => canonical_chainStore HC (Nat.le_refl _) i hi
  exact syncLoop_run HC hmh (by omega) ⟨chainStore hs 100, some 100⟩ hH hcanS (100 + 2) 10
    (by omega) (by omega)

theorem scenarioB_client1_eq {hs : Nat → BlockHeader} {mh : Nat} (hmh : 1 ≤ mh)
    (HC : GoodChain hs 100) :
    scenarioB_client1 mh hs = chainStore hs 100 := by
  have hS := serverDB_eq HC
  show register_peer mh (HeaderStore.init (hs 0)) ⟨serverDB hs, none⟩ = _
  rw [hS]
  have hadm : ¬ ((chainStore hs 100).headScore ≤ (HeaderStore.init (hs 0)).headScore) := by
    show ¬ (chainScore hs 100 ≤ (hs 0).difficulty)
    have hlt := chainScore_lt HC 100 0 (by omega) (by omega)
    have h0 : chainScore hs 0 = (hs 0).difficulty := rfl
    omega
  show (if (chainStore hs 100).headScore ≤ (HeaderStore.init (hs 0)).headScore
    then HeaderStore.init (hs 0)
    else syncLoop mh ⟨chainStore hs 100, none⟩
      ((chainStore hs 100).get_canonical_head.block_number)
      ((chainStore hs 100).get_canonical_head.block_number + 2)
      ((HeaderStore.init (hs 0)).head.block_number)
      (HeaderStore.init (hs 0))) = chainStore hs 100
  rw [if_neg hadm]
  have hb100 : (chainStore hs 100).get_canonical_head.block_number = 100 :=
    HC.1 100 (by omega)
  have hb0 : (HeaderStore.init (hs 0)).head.block_number = 0 := HC.1 0 (by omega)
  rw [hb100, hb0, init_eq_chainStore hs]
  have hhn : LESPeerServer.head_number ⟨chainStore hs 100, none⟩ = 100 :=
    HC.1 100 (by omega)
  have hH : (100 : Nat) ≤ LESPeerServer.head_number ⟨chainStore hs 100, none⟩ :=
    le_of_eq hhn.symm
  have hcanS : ∀ i, i ≤ 100 →
      (chainStore hs 100).get_canonical_block_header_by_number i = some (hs i) :=
    fun i hi => canonical_chainStore HC (Nat.le_refl _) i hi
  rw [show (100 : Nat) + 2 = 101 + 1 from rfl]
  exact syncLoop_run_overlap HC hmh (Nat.le_refl _) ⟨chainStore hs 100, none⟩ hH hcanS
    101 0 (by omega) (by omega)

theorem scenarioB_serverdb_eq {hs : Nat → BlockHeader} (HC : GoodChain hs 100)
    (Hfresh : ∀ i, i < 101 → (reorgHead hs 100).hash ≠ (hs i).hash) :
    scenarioB_serverdb hs = reorgStore hs := by
  show (serverDB hs).persist_header (reorgHead hs 100) = _
  rw [serverDB_eq HC, persist_reorgStore HC Hfresh]

theorem reorg_batch_one {hs : Nat → BlockHeader} :
    (List.range' 100 1).map (updF hs 100 (reorgHead hs 100)) = [reorgHead hs 100] := by
  show [updF hs 100 (reorgHead hs 100) 100] = _
  rw [show updF hs 100 (reorgHead hs 100) 100 = reorgHead hs 100 from by simp [updF]]

theorem reorg_valid_one {hs : Nat → BlockHeader} (HC : GoodChain hs 100) :
    validBatch (chainStore hs 100) [reorgHead hs 100] = true := by
  have hl : (chainStore hs 100).lookup ((hs 99).hash) =
      some ⟨hs 99, chainScore hs 99⟩ :=
    lookup_chainStore HC 100 (Nat.le_refl _) 99 (by omega)
  show ((((chainStore hs 100).lookup (reorgHead hs 100).parent_hash).isSome ||
    ((chainStore hs 100).lookup (reorgHead hs 100).hash).isSome) &&
    linkedBatch [reorgHead hs 100]) = true
  rw [show (reorgHead hs 100).parent_hash = (hs 99).hash from rfl, hl]
  rfl

theorem reorg_persist_one {hs : Nat → BlockHeader} (HC : GoodChain hs 100)
    (Hfresh : ∀ i, i < 101 → (reorgHead hs 100).hash ≠ (hs i).hash) :
    (chainStore hs 100).persist_headers [reorgHead hs 100] = reorgStore hs := by
  rw [persist_headers_cons, persist_reorgStore HC Hfresh]
  rfl

theorem syncLoop_reorg_last {hs : Nat → BlockHeader} {mh : Nat} (hmh : 1 ≤ mh)
    (HC : GoodChain hs 100)
    (Hfresh : ∀ i, i < 101 → (reorgHead hs 100).hash ≠ (hs i).hash)
    (ov : Option Nat) (hov : LESPeerServer.head_number ⟨reorgStore hs, ov⟩ = 100) :
    ∀ fuel, 1 ≤ fuel →
      syncLoop mh ⟨reorgStore hs, ov⟩ 100 (fuel + 1) 100 (chainStore hs 100) =
        reorgStore hs := by
  intro fuel hfuel
  have hcan2 := canonical_reorgStore HC Hfresh
  rw [syncLoop_succ, if_neg (by omega : ¬ (100 < 100)),
    show (100 : Nat) + 1 - 100 = 1 from rfl, Nat.min_eq_right hmh]
  have hhandle := handle_ok ⟨reorgStore hs, ov⟩ (updF hs 100 (reorgHead hs 100)) 0 100 1
    (by rw [hov]) (fun i h1 h2 => hcan2 i (by omega))
  rw [hhandle]
  show (if ((List.range' 100 1).map (updF hs 100 (reorgHead hs 100))).isEmpty
    then chainStore hs 100
    else if validBatch (chainStore hs 100)
        ((List.range' 100 1).map (updF hs 100 (reorgHead hs 100))) then
      syncLoop mh ⟨reorgStore hs, ov⟩ 100 fuel
        (100 + ((List.range' 100 1).map (updF hs 100 (reorgHead hs 100))).length)
        ((chainStore hs 100).persist_headers
          ((List.range' 100 1).map (updF hs 100 (reorgHead hs 100))))
    else chainStore hs 100) = reorgStore hs
  rw [reorg_batch_one]
  rw [show ([reorgHead hs 100] : List BlockHeader).isEmpty = false from rfl,
    reorg_valid_one HC, reorg_persist_one HC Hfresh]
  simp only [Bool.false_eq_true, if_false, if_pos rfl]
  obtain ⟨f, hf⟩ : ∃ f, fuel = f + 1 := ⟨fuel - 1, by omega⟩
  rw [hf, show (100 : Nat) + ([reorgHead hs 100] : List BlockHeader).length = 101 from rfl,
    syncLoop_succ]
  rw [if_pos (by omega : 100 < 101)]
  rfl

theorem reorg_batch_two {hs : Nat → BlockHeader} :
    (List.range' 99 2).map (updF hs 100 (reorgHead hs 100)) =
      [hs 99, reorgHead hs 100] := by
  show [updF hs 100 (reorgHead hs 100) 99, updF hs 100 (reorgHead hs 100) 100] = _
  rw [show updF hs 100 (reorgHead hs 100) 99 = hs 99 from by simp [updF],
    show updF hs 100 (reorgHead hs 100) 100 = reorgHead hs 100 from by simp [updF]]

theorem reorg_valid_two {hs : Nat → BlockHeader} (HC : GoodChain hs 100) :
    validBatch (chainStore hs 100) [hs 99, reorgHead hs 100] = true := by
  have hp99 : (hs 99).parent_hash = (hs 98).hash := HC.2.1 98 (by omega)
  have hl98 : (chainStore hs 100).lookup ((hs 98).hash) =
      some ⟨hs 98, chainScore hs 98⟩ :=
    lookup_chainStore HC 100 (Nat.le_refl _) 98 (by omega)
  have e1 : ((reorgHead hs 100).parent_hash == (hs 99).hash) = true := by
    rw [show (reorgHead hs 100).parent_hash = (hs 99).hash from rfl]
    simp
  have e2 : ((reorgHead hs 100).block_number == (hs 99).block_number + 1) = true := by
    rw [show (reorgHead hs 100).block_number = (hs 99).block_number + 1 from rfl]
    simp
  show ((((chainStore hs 100).lookup (hs 99).parent_hash).isSome ||
    ((chainStore hs 100).lookup (hs 99).hash).isSome) &&
    (((reorgHead hs 100).parent_hash == (hs 99).hash) &&
      ((reorgHead hs 100).block_number == (hs 99).block_number + 1) &&
      linkedBatch [reorgHead hs 100])) = true
  rw [hp99, hl98, e1, e2]
  rfl

theorem reorg_persist_two {hs : Nat → BlockHeader} (HC : GoodChain hs 100)
    (Hfresh : ∀ i, i < 101 → (reorgHead hs 100).hash ≠ (hs i).hash) :
    (chainStore hs 100).persist_headers [hs 99, reorgHead hs 100] = reorgStore hs := by
  have hsk : ((chainStore hs 100).lookup ((hs 99).hash)).isSome = true := by
    rw [lookup_chainStore HC 100 (Nat.le_refl _) 99 (by omega)]
    rfl
  rw [persist_headers_cons, persist_skip hsk, persist_headers_cons,
    persist_reorgStore HC Hfresh]
  rfl

theorem syncLoop_reorg_from99 {hs : Nat → BlockHeader} {mh : Nat} (hmh : 1 ≤ mh)
    (HC : GoodChain hs 100)
    (Hfresh : ∀ i, i < 101 → (reorgHead hs 100).hash ≠ (hs i).hash)
    (ov : Option Nat) (hov : LESPeerServer.head_number ⟨reorgStore hs, ov⟩ = 100) :
    ∀ fuel, 1 ≤ fuel →
      syncLoop mh ⟨reorgStore hs, ov⟩ 100 (fuel + 2) 99 (chainStore hs 100) =
        reorgStore hs := by
  intro fuel hfuel
  have hcan2 := canonical_reorgStore HC Hfresh
  rw [show fuel + 2 = (fuel + 1) + 1 from rfl, syncLoop_succ,
    if_neg (by omega : ¬ (100 < 99)), show (100 : Nat) + 1 - 99 = 2 from rfl]
  rcases Nat.lt_or_ge mh 2 with h2 | h2
  · have hm1 : mh = 1 := by omega
    subst hm1
    rw [show min 1 2 = 1 from rfl]
    have hhandle := handle_ok ⟨reorgStore hs, ov⟩ (updF hs 100 (reorgHead hs 100)) 0 99 1
      (by rw [hov]; omega) (fun i h1 h2 => hcan2 i (by omega))
    rw [hhandle]
    show (if ((List.range' 99 1).map (updF hs 100 (reorgHead hs 100))).isEmpty
      then chainStore hs 100
      else if validBatch (chainStore hs 100)
          ((List.range' 99 1).map (updF hs 100 (reorgHead hs 100))) then
        syncLoop 1 ⟨reorgStore hs, ov⟩ 100 (fuel + 1)
          (99 + ((List.range' 99 1).map (updF hs 100 (reorgHead hs 100))).length)
          ((chainStore hs 100).persist_headers
            ((List.range' 99 1).map (updF hs 100 (reorgHead hs 100))))
      else chainStore hs 100) = reorgStore hs
    have hb : (List.range' 99 1).map (updF hs 100 (reorgHead hs 100)) = [hs 99] := by
      show [updF hs 100 (reorgHead hs 100) 99] = _
      rw [show updF hs 100 (reorgHead hs 100) 99 = hs 99 from by simp [updF]]
    rw [hb]
    have hp99 : (hs 99).parent_hash = (hs 98).hash := HC.2.1 98 (by omega)
    have hl98 : (chainStore hs 100).lookup ((hs 98).hash) =
        some ⟨hs 98, chainScore hs 98⟩ :=
      lookup_chainStore HC 100 (Nat.le_refl _) 98 (by omega)
    have hvalid : validBatch (chainStore hs 100) [hs 99] = true := by
      show ((((chainStore hs 100).lookup (hs 99).parent_hash).isSome ||
        ((chainStore hs 100).lookup (hs 99).hash).isSome) &&
        linkedBatch [hs 99]) = true
      rw [hp99, hl98]
      rfl
    have hsk : ((chainStore hs 100).lookup ((hs 99).hash)).isSome = true := by
      rw [lookup_chainStore HC 100 (Nat.le_refl _) 99 (by omega)]
      rfl
    have hpersist : (chainStore hs 100).persist_headers [hs 99] = chainStore hs 100 := by
      rw [persist_headers_cons, persist_skip hsk]
      rfl
    rw [show ([hs 99] : List BlockHeader).isEmpty = false from rfl, hvalid, hpersist]
    simp only [Bool.false_eq_true, if_false, if_pos rfl]
    rw [show (99 : Nat) + ([hs 99] : List BlockHeader).length = 100 from rfl]
    exact syncLoop_reorg_last (Nat.le_refl 1) HC Hfresh ov hov fuel hfuel
  · rw [Nat.min_eq_right h2]
    have hhandle := handle_ok ⟨reorgStore hs, ov⟩ (updF hs 100 (reorgHead hs 100)) 0 99 2
      (by rw [hov]) (fun i h1 h2 => hcan2 i (by omega))
    rw [hhandle]
    show (if ((List.range' 99 2).map (updF hs 100 (reorgHead hs 100))).isEmpty
      then chainStore hs 100
      else if validBatch (chainStore hs 100)
          ((List.range' 99 2).map (updF hs 100 (reorgHead hs 100))) then
        syncLoop mh ⟨reorgStore hs, ov⟩ 100 (fuel + 1)
          (99 + ((List.range' 99 2).map (updF hs 100 (reorgHead hs 100))).length)
          ((chainStore hs 100).persist_headers
            ((List.range' 99 2).map (updF hs 100 (reorgHead hs 100))))
      else chainStore hs 100) = reorgStore hs
    rw [reorg_batch_two]
    rw [show ([hs 99, reorgHead hs 100] : List BlockHeader).isEmpty = false from rfl,
      reorg_valid_two HC, reorg_persist_two HC Hfresh]
    simp only [Bool.false_eq_true, if_false, if_pos rfl]
    obtain ⟨f, hf⟩ : ∃ f, fuel = f + 1 := ⟨fuel - 1, by omega⟩
    rw [hf, show (99 : Nat) + ([hs 99, reorgHead hs 100] : List BlockHeader).length = 101
      from rfl, syncLoop_succ]
    rw [if_pos (by omega : 100 < 101)]
    rfl

theorem scenarioB_final_eq {hs : Nat → BlockHeader} {mh : Nat} (hmh : 1 ≤ mh)
    (HC : GoodChain hs 100)
    (Hfresh : ∀ i, i < 101 → (reorgHead hs 100).hash ≠ (hs i).hash) :
    scenarioB_final mh hs = (reorgStore hs, ⟨reorgStore hs, some 100⟩) := by
  show announce_and_sync mh (scenarioB_client1 mh hs) ⟨scenarioB_serverdb hs, none⟩
    (some 100) 1 = _
  rw [scenarioB_client1_eq hmh HC, scenarioB_serverdb_eq HC Hfresh]
  have hcanT : (reorgStore hs).get_canonical_block_header_by_number 100 =
      some (reorgHead hs 100) := by
    have h := canonical_reorgStore HC Hfresh 100 (Nat.le_refl _)
    rw [show updF hs 100 (reorgHead hs 100) 100 = reorgHead hs 100 from by simp [updF]] at h
    exact h
  have hscT : (reorgStore hs).get_score ((reorgHead hs 100).hash) =
      some (chainScore hs 100 + 1) := by
    show ((reorgStore hs).lookup ((reorgHead hs 100).hash)).map _ = _
    rw [lookup_reorgStore_new]
    rfl
  have hann := send_announce_some (reorgStore hs) none 100 1 (reorgHead hs 100)
    (chainScore hs 100 + 1) hcanT hscT
  simp only [announce_and_sync]
  rw [hann]
  show (process_announce mh (chainStore hs 100) ⟨reorgStore hs, some 100⟩
    ⟨(reorgHead hs 100).hash, (reorgHead hs 100).block_number, chainScore hs 100 + 1, 1⟩,
    (⟨reorgStore hs, some 100⟩ : LESPeerServer)) = _
  refine congrArg (fun st => (st, (⟨reorgStore hs, some 100⟩ : LESPeerServer))) ?_
  have hadm : ¬ (chainScore hs 100 + 1 ≤ (chainStore hs 100).headScore) := by
    show ¬ (chainScore hs 100 + 1 ≤ chainScore hs 100)
    omega
  show (if chainScore hs 100 + 1 ≤ (chainStore hs 100).headScore then chainStore hs 100
    else syncLoop mh ⟨reorgStore hs, some 100⟩ (reorgHead hs 100).block_number
      ((reorgHead hs 100).block_number + 2)
      (if (1 : Nat) = 0 then (chainStore hs 100).head.block_number + 1
        else (chainStore hs 100).head.block_number - 1)
      (chainStore hs 100)) = reorgStore hs
  rw [if_neg hadm, if_neg (by omega : ¬ ((1 : Nat) = 0))]
  have hbr : (reorgHead hs 100).block_number = 100 := reorgHead_block_number HC
  have hbh : (chainStore hs 100).head.block_number = 100 := HC.1 100 (by omega)
  rw [hbr, hbh, show (100 : Nat) - 1 = 99 from rfl]
  have hov : LESPeerServer.head_number ⟨reorgStore hs, some 100⟩ = 100 := rfl
  exact syncLoop_reorg_from99 hmh HC Hfresh (some 100) hov 100 (by omega)

theorem scenarioC_client2_eq {hs : Nat → BlockHeader} {mh : Nat} (hmh : 1 ≤ mh)
    (HC : GoodChain hs 100)
    (Hfresh : ∀ i, i < 101 → (reorgHead hs 100).hash ≠ (hs i).hash) :
    scenarioC_client2 mh hs = reorgStore hs := by
  show register_peer mh (scenarioB_client1 mh hs) ⟨scenarioB_serverdb hs, none⟩ = _
  rw [scenarioB_client1_eq hmh HC, scenarioB_serverdb_eq HC Hfresh]
  have hadm : ¬ ((reorgStore hs).headScore ≤ (chainStore hs 100).headScore) := by
    show ¬ (chainScore hs 100 + 1 ≤ chainScore hs 100)
    omega
  show (if (reorgStore hs).headScore ≤ (chainStore hs 100).headScore
    then chainStore hs 100
    else syncLoop mh ⟨reorgStore hs, none⟩
      ((reorgStore hs).get_canonical_head.block_number)
      ((reorgStore hs).get_canonical_head.block_number + 2)
      ((chainStore hs 100).head.block_number) (chainStore hs 100)) = reorgStore hs
  rw [if_neg hadm]
  have hbr : (reorgStore hs).get_canonical_head.block_number = 100 :=
    reorgHead_block_number HC
  have hbh : (chainStore hs 100).head.block_number = 100 := HC.1 100 (by omega)
  rw [hbr, hbh]
  have hov : LESPeerServer.head_number ⟨reorgStore hs, none⟩ = 100 :=
    reorgHead_block_number HC
  rw [show (100 : Nat) + 2 = 101 + 1 from rfl]
  exact syncLoop_reorg_last hmh HC Hfresh none hov 101 (by omega)

/-! ### Store well-formedness and the canonical-chain invariant -/

theorem wf_init (g : BlockHeader) (hg : g.block_number = 0) :
    WFStore (HeaderStore.init g) := by
  constructor
  · exact ⟨⟨g, g.difficulty⟩, by simp [HeaderStore.init], rfl⟩
  · intro st hst
    have hst2 : st = ⟨g, g.difficulty⟩ := by simpa [HeaderStore.init] using hst
    subst hst2
    left
    exact hg

theorem lookup_extend_ne {s : HeaderStore} {h : BlockHeader} {sc : Nat}
    {hd2 : BlockHeader} {hsc2 : Nat} {q : Nat} (hne : ¬ h.hash = q) :
    HeaderStore.lookup ⟨⟨h, sc⟩ :: s.stored, hd2, hsc2⟩ q = s.lookup q := by
  show (⟨h, sc⟩ :: s.stored).find? _ = _
  rw [find?_hash_cons_neg _ hne]
  rfl

theorem wf_extend {s : HeaderStore} (hwf : WFStore s) {h : BlockHeader} {p : Stored}
    (hnone : s.lookup h.hash = none) (hp : s.lookup h.parent_hash = some p)
    (hnum : h.block_number = p.header.block_number + 1)
    (sc : Nat) (hd2 : BlockHeader) (hsc2 : Nat)
    (hhd : hd2 = h ∨ hd2 = s.head) :
    WFStore ⟨⟨h, sc⟩ :: s.stored, hd2, hsc2⟩ := by
  obtain ⟨⟨sth, hsth, hsthh⟩, hall⟩ := hwf
  constructor
  · rcases hhd with he | he
    · exact ⟨⟨h, sc⟩, List.mem_cons_self _ _, he.symm⟩
    · exact ⟨sth, List.mem_cons_of_mem _ hsth, by rw [hsthh]; exact he.symm⟩
  · intro st hst
    rcases List.mem_cons.mp hst with rfl | hst2
    · right
      refine ⟨p, ?_, hnum⟩
      have hne : ¬ h.hash = h.parent_hash := by
        intro he
        have hx : s.lookup h.hash = some p := by rw [he]; exact hp
        rw [hnone] at hx
        simp at hx
      show HeaderStore.lookup ⟨⟨h, sc⟩ :: s.stored, hd2, hsc2⟩ h.parent_hash = some p
      rw [lookup_extend_ne hne]
      exact hp
    · rcases hall st hst2 with h0 | ⟨p2, hp2, hnum2⟩
      · left
        exact h0
      · right
        refine ⟨p2, ?_, hnum2⟩
        have hne : ¬ h.hash = st.header.parent_hash := by
          intro he
          have hx : s.lookup h.hash = some p2 := by rw [he]; exact hp2
          rw [hnone] at hx
          simp at hx
        rw [lookup_extend_ne hne]
        exact hp2

theorem wf_persist {s : HeaderStore} (hwf : WFStore s) (h : BlockHeader) :
    WFStore (s.persist_header h) := by
  by_cases hsk : (s.lookup h.hash).isSome = true
  · rw [persist_skip hsk]
    exact hwf
  · have hnone : s.lookup h.hash = none := by
      cases hl : s.lookup h.hash with
      | none => rfl
      | some st => rw [hl] at hsk; simp at hsk
    show WFStore (if (s.lookup h.hash).isSome then s
      else match s.lookup h.parent_hash with
        | none => s
        | some p =>
          if h.block_number = p.header.block_number + 1 then
            if s.headScore < p.score + h.difficulty then
              ⟨⟨h, p.score + h.difficulty⟩ :: s.stored, h, p.score + h.difficulty⟩
            else ⟨⟨h, p.score + h.difficulty⟩ :: s.stored, s.head, s.headScore⟩
          else s)
    rw [hnone]
    show WFStore (match s.lookup h.parent_hash with
      | none => s
      | some p =>
        if h.block_number = p.header.block_number + 1 then
          if s.headScore < p.score + h.difficulty then
            ⟨⟨h, p.score + h.difficulty⟩ :: s.stored, h, p.score + h.difficulty⟩
          else ⟨⟨h, p.score + h.difficulty⟩ :: s.stored, s.head, s.headScore⟩
        else s)
    cases hp : s.lookup h.parent_hash with
    | none => exact hwf
    | some p =>
      show WFStore (if h.block_number = p.header.block_number + 1 then
        if s.headScore < p.score + h.difficulty then
          ⟨⟨h, p.score + h.difficulty⟩ :: s.stored, h, p.score + h.difficulty⟩
        else ⟨⟨h, p.score + h.difficulty⟩ :: s.stored, s.head, s.headScore⟩
        else s)
      by_cases hnum : h.block_number = p.header.block_number + 1
      · rw [if_pos hnum]
        by_cases hscr : s.headScore < p.score + h.difficulty
        · rw [if_pos hscr]
          exact wf_extend hwf hnone hp hnum _ _ _ (Or.inl rfl)
        · rw [if_neg hscr]
          exact wf_extend hwf hnone hp hnum _ _ _ (Or.inr rfl)
      · rw [if_neg hnum]
        exact hwf

theorem wf_persist_headers {s : HeaderStore} (hwf : WFStore s) (l : List BlockHeader) :
    WFStore (s.persist_headers l) := by
  induction l generalizing s with
  | nil => exact hwf
  | cons h t ih =>
    rw [persist_headers_cons]
    exact ih (wf_persist hwf h)

theorem ancestorAt_wf {s : HeaderStore} (hwf : WFStore s) :
    ∀ k st, st ∈ s.stored → k ≤ st.header.block_number →
      ∃ h2, s.ancestorAt st.header k = some h2 ∧
        h2.block_number = st.header.block_number - k ∧
        ∃ st2, st2 ∈ s.stored ∧ st2.header = h2 := by
  intro k
  induction k with
  | zero =>
    intro st hst _
    exact ⟨st.header, rfl, by omega, st, hst, rfl⟩
  | succ k ih =>
    intro st hst hk
    rcases hwf.2 st hst with h0 | ⟨p, hp, hnum⟩
    · omega
    · have hpmem : p ∈ s.stored := (lookup_property hp).1
      obtain ⟨h2, hh2, hbn, st2, hst2, hst2h⟩ := ih p hpmem (by omega)
      refine ⟨h2, ?_, by omega, st2, hst2, hst2h⟩
      rw [ancestorAt_succ_eq, hp]
      exact hh2

theorem ancestorAt_bind (s : HeaderStore) :
    ∀ k h, s.ancestorAt h (k + 1) =
      (s.ancestorAt h k).bind
        (fun x => (s.lookup x.parent_hash).map (fun p => p.header)) := by
  intro k
  induction k with
  | zero =>
    intro h
    rw [ancestorAt_succ_eq]
    show (match s.lookup h.parent_hash with
      | none => none
      | some p => s.ancestorAt p.header 0) =
      (s.lookup h.parent_hash).map (fun p => p.header)
    cases hl : s.lookup h.parent_hash with
    | none => rfl
    | some p => rfl
  | succ k ih =>
    intro h
    rw [ancestorAt_succ_eq]
    cases hl : s.lookup h.parent_hash with
    | none =>
      show (none : Option BlockHeader) = (s.ancestorAt h (k + 1)).bind _
      rw [ancestorAt_succ_eq, hl]
      rfl
    | some p =>
      show s.ancestorAt p.header (k + 1) = (s.ancestorAt h (k + 1)).bind _
      rw [ih p.header, ancestorAt_succ_eq, hl]

/-- Claim C1: for every block number n greater than genesis on the client's
canonical chain after any sequence of syncs, the header at n has parent_hash
equal to the hash of the header at n-1, and block numbers strictly increase
from genesis to head.  Any sequence of syncs mutates the Header Store only
through persist_header, so the reachable stores are exactly the
c1Store g batch for some list of attempted headers; the first conjunct shows
every height up to the head carries a header with that exact block number
(strict increase), the second the parent-hash linkage. -/
theorem canonical_chain_linkage (g : BlockHeader) (batch : List BlockHeader)
    (hg : g.block_number = 0) :
    (∀ n, n ≤ (c1Store g batch).get_canonical_head.block_number →
      ∃ h, (c1Store g batch).get_canonical_block_header_by_number n = some h ∧
        h.block_number = n) ∧
    (∀ n, 0 < n → n ≤ (c1Store g batch).get_canonical_head.block_number →
      ∀ hn hp, (c1Store g batch).get_canonical_block_header_by_number n = some hn →
        (c1Store g batch).get_canonical_block_header_by_number (n - 1) = some hp →
        hn.parent_hash = hp.hash) := by
  have hwf : WFStore (c1Store g batch) := wf_persist_headers (wf_init g hg) batch
  obtain ⟨sth, hsth, hsthh⟩ := hwf.1
  constructor
  · intro n hn
    have hn2 : n ≤ (c1Store g batch).head.block_number := hn
    obtain ⟨h2, hh2, hbn, _⟩ := ancestorAt_wf hwf
      ((c1Store g batch).head.block_number - n) sth hsth (by rw [hsthh]; omega)
    rw [hsthh] at hh2 hbn
    refine ⟨h2, ?_, by omega⟩
    show (if n ≤ (c1Store g batch).head.block_number then
      (c1Store g batch).ancestorAt (c1Store g batch).head
        ((c1Store g batch).head.block_number - n) else none) = some h2
    rw [if_pos hn2]
    exact hh2
  · intro n hn0 hnH hn hp hcn hcp
    have hnH2 : n ≤ (c1Store g batch).head.block_number := hnH
    have hcn2 : (c1Store g batch).ancestorAt (c1Store g batch).head
        ((c1Store g batch).head.block_number - n) = some hn := by
      have := hcn
      rw [show (c1Store g batch).get_canonical_block_header_by_number n =
        (if n ≤ (c1Store g batch).head.block_number then
          (c1Store g batch).ancestorAt (c1Store g batch).head
            ((c1Store g batch).head.block_number - n) else none) from rfl,
        if_pos hnH2] at this
      exact this
    have hcp2 : (c1Store g batch).ancestorAt (c1Store g batch).head
        (((c1Store g batch).head.block_number - n) + 1) = some hp := by
      have := hcp
      rw [show (c1Store g batch).get_canonical_block_header_by_number (n - 1) =
        (if n - 1 ≤ (c1Store g batch).head.block_number then
          (c1Store g batch).ancestorAt (c1Store g batch).head
            ((c1Store g batch).head.block_number - (n - 1)) else none) from rfl,
        if_pos (by omega), show (c1Store g batch).head.block_number - (n - 1) =
          ((c1Store g batch).head.block_number - n) + 1 from by omega] at this
      exact this
    rw [ancestorAt_bind, hcn2] at hcp2
    have hcp3 : ((c1Store g batch).lookup hn.parent_hash).map (fun p => p.header) =
        some hp := hcp2
    rcases Option.map_eq_some'.mp hcp3 with ⟨p2, hp2, hp2h⟩
    have := (lookup_property hp2).2
    rw [← hp2h, this]

/-! ### Claim theorems for the sync scenarios -/

/-- Claim C2: starting from a fresh client chain, if the server announces head
number 10, the client fetches the missing headers and its canonical chain
equals the server's up to block 10; if the server then announces head number
100, the client fetches the remaining headers and the two canonical chains are
equal up to block 100. -/
theorem incremental_header_sync (mh : Nat) (hs : Nat → BlockHeader) (hmh : 1 ≤ mh)
    (HC : GoodChain hs 100) :
    (∀ i, i ≤ 10 →
      (scenarioA_step1 mh hs).1.get_canonical_block_header_by_number i =
        (serverDB hs).get_canonical_block_header_by_number i ∧
      ((scenarioA_step1 mh hs).1.get_canonical_block_header_by_number i).isSome = true) ∧
    (∀ i, i ≤ 100 →
      (scenarioA_step2 mh hs).1.get_canonical_block_header_by_number i =
        (serverDB hs).get_canonical_block_header_by_number i ∧
      ((scenarioA_step2 mh hs).1.get_canonical_block_header_by_number i).isSome = true) := by
  have hS := serverDB_eq HC
  have h1 := scenarioA_step1_eq hmh HC
  have h2 := scenarioA_step2_eq hmh HC
  constructor
  · intro i hi
    rw [h1, hS]
    show (chainStore hs 10).get_canonical_block_header_by_number i =
      (chainStore hs 100).get_canonical_block_header_by_number i ∧
      ((chainStore hs 10).get_canonical_block_header_by_number i).isSome = true
    rw [canonical_chainStore HC (by omega) i hi,
      canonical_chainStore HC (Nat.le_refl _) i (by omega)]
    exact ⟨rfl, rfl⟩
  · intro i hi
    rw [h2, hS]
    show (chainStore hs 100).get_canonical_block_header_by_number i =
      (chainStore hs 100).get_canonical_block_header_by_number i ∧
      ((chainStore hs 100).get_canonical_block_header_by_number i).isSome = true
    rw [canonical_chainStore HC (Nat.le_refl _) i hi]
    exact ⟨rfl, rfl⟩

/-- Claim C3: after the client is fully synced to the server's head at block
100, the server persists a competing header at height 100 with difficulty one
higher, which becomes its new canonical head; it announces (head_number = 100,
reorg_depth = 1), and the client ends with the higher-difficulty header as its
canonical head at 100 and its canonical chain equal to the server's. -/
theorem full_header_sync_and_reorg (mh : Nat) (hs : Nat → BlockHeader) (hmh : 1 ≤ mh)
    (HC : GoodChain hs 100)
    (Hfresh : ∀ i, i < 101 → (reorgHead hs 100).hash ≠ (hs i).hash) :
    (scenarioB_serverdb hs).get_canonical_head = reorgHead hs 100 ∧
    (scenarioB_final mh hs).1.get_canonical_head = reorgHead hs 100 ∧
    (∀ i, i ≤ 100 →
      (scenarioB_final mh hs).1.get_canonical_block_header_by_number i =
        (scenarioB_serverdb hs).get_canonical_block_header_by_number i ∧
      ((scenarioB_final mh hs).1.get_canonical_block_header_by_number i).isSome = true) := by
  have hsrv := scenarioB_serverdb_eq HC Hfresh
  have hfin := scenarioB_final_eq hmh HC Hfresh
  refine ⟨?_, ?_, ?_⟩
  · rw [hsrv]
    rfl
  · rw [hfin]
    rfl
  · intro i hi
    rw [hfin, hsrv]
    show (reorgStore hs).get_canonical_block_header_by_number i =
      (reorgStore hs).get_canonical_block_header_by_number i ∧
      ((reorgStore hs).get_canonical_block_header_by_number i).isSome = true
    refine ⟨rfl, ?_⟩
    rw [canonical_reorgStore HC Hfresh i hi]
    rfl

/-- Claim C4: after the client synced block 100 from the first peer, a second
peer whose chain carries a competing head at 100 with a different hash and a
higher cumulative score registers; the bootstrap sync triggered by the
registration leaves the client's canonical chain up to block 100 equal to the
second peer's, with the competing header as canonical head. -/
theorem header_sync_with_multi_peers (mh : Nat) (hs : Nat → BlockHeader) (hmh : 1 ≤ mh)
    (HC : GoodChain hs 100)
    (Hfresh : ∀ i, i < 101 → (reorgHead hs 100).hash ≠ (hs i).hash) :
    (scenarioC_client2 mh hs).get_canonical_head = reorgHead hs 100 ∧
    (∀ i, i ≤ 100 →
      (scenarioC_client2 mh hs).get_canonical_block_header_by_number i =
        (scenarioB_serverdb hs).get_canonical_block_header_by_number i ∧
      ((scenarioC_client2 mh hs).get_canonical_block_header_by_number i).isSome = true) := by
  have hsrv := scenarioB_serverdb_eq HC Hfresh
  have hcl := scenarioC_client2_eq hmh HC Hfresh
  refine ⟨?_, ?_⟩
  · rw [hcl]
    rfl
  · intro i hi
    rw [hcl, hsrv]
    refine ⟨rfl, ?_⟩
    rw [canonical_reorgStore HC Hfresh i hi]
    rfl

/-- Claim C5: committing the same header batch to the Header Store a second
time leaves the store unchanged — a header whose hash is already present is
skipped as a no-op, and after the first commit every header of the batch is
present (hypothesis hmem). -/
theorem persist_headers_idempotent (s : HeaderStore) (batch : List BlockHeader)
    (hmem : ∀ h ∈ batch, ((s.persist_headers batch).lookup h.hash).isSome = true) :
    (s.persist_headers batch).persist_headers batch = s.persist_headers batch := by
  have haux : ∀ l : List BlockHeader,
      (∀ h ∈ l, ((s.persist_headers batch).lookup h.hash).isSome = true) →
      (s.persist_headers batch).persist_headers l = s.persist_headers batch := by
    intro l
    induction l with
    | nil => intro _; rfl
    | cons h t ih =>
      intro hall
      rw [persist_headers_cons, persist_skip (hall h (List.mem_cons_self _ _))]
      exact ih (fun x hx => hall x (List.mem_cons_of_mem _ hx))
  exact haux batch hmem

theorem collectCanonical_ok (db : HeaderStore) :
    ∀ d a, (∀ i, a ≤ i → i < a + d →
        ∃ h, db.get_canonical_block_header_by_number i = some h) →
      ∃ out, collectCanonical db (List.range' a d) = Except.ok out ∧
        out.length = d ∧
        ∀ j h2, out.get? j = some h2 →
          db.get_canonical_block_header_by_number (a + j) = some h2 := by
  intro d
  induction d with
  | zero =>
    intro a _
    refine ⟨[], rfl, rfl, ?_⟩
    intro j h2 hj
    simp at hj
  | succ d ih =>
    intro a hall
    obtain ⟨h0, hh0⟩ := hall a (Nat.le_refl a) (by omega)
    obtain ⟨out, hout, hlen, hget⟩ := ih (a + 1) (fun i h1 h2 => hall i (by omega) (by omega))
    refine ⟨h0 :: out, ?_, by simp [hlen], ?_⟩
    · show (match db.get_canonical_block_header_by_number a with
        | none => Except.error HandlerError.headerNotFound
        | some hd => (collectCanonical db (List.range' (a + 1) d)).map
            (fun t => hd :: t)) = _
      rw [hh0, hout]
      rfl
    · intro j h2 hj
      cases j with
      | zero =>
        rw [List.get?_cons_zero] at hj
        have hj2 : h0 = h2 := by injection hj
        rw [← hj2]
        simpa using hh0
      | succ j =>
        rw [List.get?_cons_succ] at hj
        have := hget j h2 hj
        rw [show a + (j + 1) = (a + 1) + j from by omega]
        exact this

/-- Claim C6: for every GetBlockHeaders request with reverse = false, skip = 0
and an integer anchor n not above the server's head number, over a headerdb
whose canonical index is populated up to the head (hypothesis HDB), the
BlockHeaders reply echoes the request_id and contains exactly the canonical
headers numbered n through min(head_number, n + max_headers - 1), contiguous
and in increasing block-number order. -/
theorem get_block_headers_forward (sv : LESPeerServer) (rid n mh2 : Nat)
    (hn : n ≤ sv.head_number)
    (HDB : ∀ i, i < sv.head_number + 1 →
      Option.map BlockHeader.block_number
        (sv.headerdb.get_canonical_block_header_by_number i) = some i) :
    ∃ r, sv.handle_get_block_headers
        ⟨rid, ⟨BlockNumberOrHash.number n, mh2, 0, false⟩⟩ = Except.ok r ∧
      r.request_id = rid ∧ r.buffer_value = 0 ∧
      r.headers.length = min (sv.head_number + 1) (n + mh2) - n ∧
      ∀ j h2, r.headers.get? j = some h2 →
        sv.headerdb.get_canonical_block_header_by_number (n + j) = some h2 ∧
        h2.block_number = n + j := by
  have hmin := min_le_left (sv.head_number + 1) (n + mh2)
  have hex : ∀ i, n ≤ i → i < n + (min (sv.head_number + 1) (n + mh2) - n) →
      ∃ h, sv.headerdb.get_canonical_block_header_by_number i = some h := by
    intro i h1 h2
    have hib : i < sv.head_number + 1 := by omega
    rcases Option.map_eq_some'.mp (HDB i hib) with ⟨h, hh, _⟩
    exact ⟨h, hh⟩
  obtain ⟨out, hout, hlen, hget⟩ :=
    collectCanonical_ok sv.headerdb (min (sv.head_number + 1) (n + mh2) - n) n hex
  refine ⟨⟨rid, out, 0⟩, ?_, rfl, rfl, hlen, ?_⟩
  · show (match collectCanonical sv.headerdb
        (List.range' n (min (sv.head_number + 1) (n + mh2) - n)) with
      | Except.error e => Except.error e
      | Except.ok headers => Except.ok (⟨rid, headers, 0⟩ : BlockHeadersMsg)) = _
    rw [hout]
  · intro j h2 hj
    have hjlt : j < out.length := by
      by_contra hcon
      push_neg at hcon
      rw [List.get?_eq_none.mpr hcon] at hj
      exact absurd hj (by simp)
    have hcan := hget j h2 hj
    refine ⟨hcan, ?_⟩
    have hib : n + j < sv.head_number + 1 := by omega
    have hmap := HDB (n + j) hib
    rw [hcan] at hmap
    simpa using hmap

/-- Claim C7: every GetBlockHeaders request with reverse = true over an
integer anchor makes the handler fail with an attribute error before any
header is fetched: the source reads query.block, an attribute absent from the
query structure {block_number_or_hash, max_headers, skip, reverse}, instead of
the already-bound block_number.  The claim's reply of headers walking backward
from the anchor is never produced. -/
theorem get_block_headers_reverse_attribute_error (sv : LESPeerServer)
    (rid n mh2 sk : Nat) :
    sv.handle_get_block_headers ⟨rid, ⟨BlockNumberOrHash.number n, mh2, sk, true⟩⟩ =
      Except.error HandlerError.attributeError := rfl

/-- Claim C8: the handler asserts that the query anchor is an integer, so
every hash-anchored GetBlockHeaders request fails the assertion instead of
producing a BlockHeaders response. -/
theorem hash_anchor_assertion_error (sv : LESPeerServer) (rid hv mh2 sk : Nat)
    (rv : Bool) :
    sv.handle_get_block_headers ⟨rid, ⟨BlockNumberOrHash.hash hv, mh2, sk, rv⟩⟩ =
      Except.error HandlerError.assertionError := rfl

/-- Claim C9: for every GetBlockHeaders request with reverse = false and an
integer anchor strictly above the server's head number, the server replies
with a BlockHeaders message whose headers list is empty and whose request_id
echoes the request's; no error is raised. -/
theorem anchor_above_head_empty_reply (sv : LESPeerServer) (rid n mh2 sk : Nat)
    (hn : sv.head_number < n) :
    sv.handle_get_block_headers ⟨rid, ⟨BlockNumberOrHash.number n, mh2, sk, false⟩⟩ =
      Except.ok ⟨rid, [], 0⟩ := by
  have hz : min (sv.head_number + 1) (n + mh2) - n = 0 := by
    have := min_le_left (sv.head_number + 1) (n + mh2)
    omega
  show (match collectCanonical sv.headerdb
      (List.range' n (min (sv.head_number + 1) (n + mh2) - n)) with
    | Except.error e => Except.error e
    | Except.ok headers => Except.ok (⟨rid, headers, 0⟩ : BlockHeadersMsg)) = _
  rw [hz]
  rfl

/-- Claim C10: main() selects the Ropsten chain identifier and the light sync
mode for every parsed argument vector — the two flag branches and their
defaults assign the same values, regardless of --ropsten and --light. -/
theorem main_selects_ropsten_light (args : ParsedArgs) :
    main_chain_identifier args = ChainIdentifier.ropsten ∧
    main_sync_mode args = SyncMode.light := by
  constructor
  · show (if args.ropsten then ChainIdentifier.ropsten else ChainIdentifier.ropsten) = _
    rw [ite_self]
  · show (if args.light then SyncMode.light else SyncMode.light) = _
    rw [ite_self]

/-! ### Witnesses at concrete inputs -/

theorem canonical_chain_linkage_witness :
    (∀ n, n ≤ (c1Store genesisTest [mkChain 1, mkChain 2]).get_canonical_head.block_number →
      ∃ h, (c1Store genesisTest
          [mkChain 1, mkChain 2]).get_canonical_block_header_by_number n = some h ∧
        h.block_number = n) ∧
    (∀ n, 0 < n →
      n ≤ (c1Store genesisTest [mkChain 1, mkChain 2]).get_canonical_head.block_number →
      ∀ hn hp, (c1Store genesisTest
          [mkChain 1, mkChain 2]).get_canonical_block_header_by_number n = some hn →
        (c1Store genesisTest
          [mkChain 1, mkChain 2]).get_canonical_block_header_by_number (n - 1) = some hp →
        hn.parent_hash = hp.hash) :=
  canonical_chain_linkage genesisTest [mkChain 1, mkChain 2] rfl

theorem incremental_header_sync_witness :
    (∀ i, i ≤ 10 →
      (scenarioA_step1 20 mkChain).1.get_canonical_block_header_by_number i =
        (serverDB mkChain).get_canonical_block_header_by_number i ∧
      ((scenarioA_step1 20 mkChain).1.get_canonical_block_header_by_number i).isSome =
        true) ∧
    (∀ i, i ≤ 100 →
      (scenarioA_step2 20 mkChain).1.get_canonical_block_header_by_number i =
        (serverDB mkChain).get_canonical_block_header_by_number i ∧
      ((scenarioA_step2 20 mkChain).1.get_canonical_block_header_by_number i).isSome =
        true) :=
  incremental_header_sync 20 mkChain (by decide) (by decide)

theorem full_header_sync_and_reorg_witness :
    (scenarioB_serverdb mkChain).get_canonical_head = reorgHead mkChain 100 ∧
    (scenarioB_final 20 mkChain).1.get_canonical_head = reorgHead mkChain 100 ∧
    (∀ i, i ≤ 100 →
      (scenarioB_final 20 mkChain).1.get_canonical_block_header_by_number i =
        (scenarioB_serverdb mkChain).get_canonical_block_header_by_number i ∧
      ((scenarioB_final 20 mkChain).1.get_canonical_block_header_by_number i).isSome =
        true) :=
  full_header_sync_and_reorg 20 mkChain (by decide) (by decide) (by decide)

theorem header_sync_with_multi_peers_witness :
    (scenarioC_client2 20 mkChain).get_canonical_head = reorgHead mkChain 100 ∧
    (∀ i, i ≤ 100 →
      (scenarioC_client2 20 mkChain).get_canonical_block_header_by_number i =
        (scenarioB_serverdb mkChain).get_canonical_block_header_by_number i ∧
      ((scenarioC_client2 20 mkChain).get_canonical_block_header_by_number i).isSome =
        true) :=
  header_sync_with_multi_peers 20 mkChain (by decide) (by decide) (by decide)

theorem persist_headers_idempotent_witness :
    ((HeaderStore.init genesisTest).persist_headers
        [mkChain 1, mkChain 2]).persist_headers [mkChain 1, mkChain 2] =
      (HeaderStore.init genesisTest).persist_headers [mkChain 1, mkChain 2] :=
  persist_headers_idempotent (HeaderStore.init genesisTest) [mkChain 1, mkChain 2]
    (by decide)

theorem get_block_headers_forward_witness :
    ∃ r, svSmall.handle_get_block_headers
        ⟨7, ⟨BlockNumberOrHash.number 1, 2, 0, false⟩⟩ = Except.ok r ∧
      r.request_id = 7 ∧ r.buffer_value = 0 ∧
      r.headers.length = min (svSmall.head_number + 1) (1 + 2) - 1 ∧
      ∀ j h2, r.headers.get? j = some h2 →
        svSmall.headerdb.get_canonical_block_header_by_number (1 + j) = some h2 ∧
        h2.block_number = 1 + j :=
  get_block_headers_forward svSmall 7 1 2 (by decide) (by decide)

theorem anchor_above_head_empty_reply_witness :
    svSmall.handle_get_block_headers ⟨7, ⟨BlockNumberOrHash.number 5, 2, 0, false⟩⟩ =
      Except.ok ⟨7, [], 0⟩ :=
  anchor_above_head_empty_reply svSmall 7 5 2 0 (by decide)

end PyEvm
